import Mathlib

/-!
# The reconciliation state machine of `pkg/util/state/statemachine.go`

A shallow embedding of the Go package `state` and a verification of its
documented behaviour.

Modelling conventions.

* The callbacks stored in a machine (`State.Reconcile`, `State.OnCompletion`,
  `transition.predicate`) are Go closures without arguments.  They are embedded
  as functions on an external world `W`, the context they close over: a call
  takes the world before the call and gives the returned values and the world
  after it.  The callbacks are unknown to the engine and do not reach back into
  the machine that runs them.
* `State.Reconcile` and `transition.predicate` are called without a nil check
  in the source and are embedded as functions; `State.OnCompletion` is tested
  against nil and is embedded as an `Option`.
* A Go `error` is `Option GoError`, `none` being `nil`.
* Go maps keyed by strings are functions `String → Option α`, `none` standing
  for an absent key; slices are lists.
* The logger is the list of the logging calls made through it so far.
* Every call site of a callback is recorded, in order, in a list of `Call`s, so
  that which callbacks a step invoked, and in which order, can be stated.
* `panic` ends the call with `Outcome.panicked`.
-/

namespace StateMachine

/-- A non-nil Go `error`, identified with the text it prints with `%s`. -/
structure GoError where
  msg : String
deriving DecidableEq, Repr

/-- The type `reconcile.Result` of controller-runtime: a requeue flag and a
requeue delay in nanoseconds.  The engine never inspects it. -/
structure Result where
  Requeue : Bool
  RequeueAfter : Int
deriving DecidableEq, Repr

/-- The Go zero value `reconcile.Result{}`. -/
def Result.zero : Result := ⟨false, 0⟩

/-- The struct `State`: a name, the work function `Reconcile` and the optional
hook `OnCompletion`. -/
structure State (W : Type) where
  Name : String
  Reconcile : W → (Result × Option GoError) × W
  OnCompletion : Option (W → Option GoError × W)

/-- The struct `transition`: the target state (`to` in the source, a reserved
word here) and the guard of an edge. -/
structure transition (W : Type) where
  to_ : State W
  predicate : W → (Bool × Option GoError) × W

/-- One call made through `*zap.SugaredLogger`: the level, the format string and
the arguments as printed by `%s`. -/
inductive LogEntry where
  | debugf (format : String) (args : List String)
  | errorf (format : String) (args : List String)
deriving DecidableEq, Repr

/-- The struct `Machine`. -/
structure Machine (W : Type) where
  allTransitions : String → Option (List (transition W))
  currentTransitions : List (transition W)
  currentState : Option (State W)
  logger : List LogEntry
  States : String → Option (State W)

/-- The Go map assignment `mp[key] = value`. -/
def mapSet {α : Type} (mp : String → Option α) (key : String) (value : α) :
    String → Option α :=
  fun k => if k = key then some value else mp k

/-- The Go map read `mp[key]` on a map of slices: a missing key reads as the nil
slice, which has no elements. -/
def mapGet {α : Type} (mp : String → Option (List α)) (key : String) : List α :=
  (mp key).getD []

/-- A callback invocation: the guard of an edge, the work of a state, or the
completion hook of a state. -/
inductive Call (W : Type) where
  | predicate (t : transition W)
  | work (s : State W)
  | onCompletion (s : State W)

/-- What a Go call ended with: the returned pair, or a panic. -/
inductive Outcome where
  | returned (res : Result) (err : Option GoError)
  | panicked (msg : String)
deriving DecidableEq, Repr

/-- The result of `getTransition`: the returned pointer and error, the world
after the guards that were evaluated, and the guard calls in order. -/
structure Selection (W : Type) where
  selected : Option (transition W)
  err : Option GoError
  world : W
  calls : List (Call W)

/-- The result of `Reconcile`: the outcome, the machine after the call, the
world after the callbacks that ran, and the callback calls in order. -/
structure StepResult (W : Type) where
  out : Outcome
  m : Machine W
  world : W
  calls : List (Call W)

variable {W : Type}

/-- The function `NewStateMachine`: empty maps, an empty cached edge list and no
current state. -/
def NewStateMachine (logger : List LogEntry) : Machine W :=
  { allTransitions := fun _ => none
    currentTransitions := []
    currentState := none
    logger := logger
    States := fun _ => none }

/-- The loop `for _, t := range m.currentTransitions` of `getTransition`: the
guard is called, an error ends the loop with `(nil, err)`, a true guard ends it
with the edge, and a false guard moves on to the next edge. -/
def Machine.getTransition.loop : List (transition W) → W → Selection W
  | [], w => ⟨none, none, w, []⟩
  | t :: ts, w =>
    let r := t.predicate w
    match r.1.2 with
    | some err => ⟨none, some err, r.2, [Call.predicate t]⟩
    | none =>
      if r.1.1 then
        ⟨some t, none, r.2, [Call.predicate t]⟩
      else
        let rest := Machine.getTransition.loop ts r.2
        ⟨rest.selected, rest.err, rest.world, Call.predicate t :: rest.calls⟩

/-- The method `Machine.getTransition`. -/
def Machine.getTransition (m : Machine W) (w : W) : Selection W :=
  Machine.getTransition.loop m.currentTransitions w

/-- The method `Machine.SetState`: the returned error and the machine after the
call. -/
def Machine.SetState (m : Machine W) (state : State W) : Option GoError × Machine W :=
  match m.currentState with
  | some cur =>
    if cur.Name = state.Name then
      (none, m)
    else
      (none,
        { m with
          logger := m.logger ++
            [LogEntry.debugf "Transitioning from %s to %s." [cur.Name, state.Name]]
          currentState := some state
          currentTransitions := mapGet m.allTransitions state.Name })
  | none =>
    (none,
      { m with
        logger := m.logger ++ [LogEntry.debugf "Setting starting state %s." [state.Name]]
        currentState := some state
        currentTransitions := mapGet m.allTransitions state.Name })

/-- The method `Machine.AddTransition` (`frm` and `to_` are the parameters `from`
and `to`). -/
def Machine.AddTransition (m : Machine W) (frm to_ : State W)
    (predicate : W → (Bool × Option GoError) × W) : Machine W :=
  let all1 :=
    match m.allTransitions frm.Name with
    | some _ => m.allTransitions
    | none => mapSet m.allTransitions frm.Name []
  let all2 := mapSet all1 frm.Name (mapGet all1 frm.Name ++ [⟨to_, predicate⟩])
  let states1 := mapSet m.States frm.Name frm
  let states2 := mapSet states1 to_.Name to_
  { m with allTransitions := all2, States := states2 }

/-- The method `Machine.Reconcile`, one step of the machine. -/
def Machine.Reconcile (m : Machine W) (w : W) : StepResult W :=
  let sel := m.getTransition w
  match sel.err with
  | some err => ⟨Outcome.returned Result.zero (some err), m, sel.world, sel.calls⟩
  | none =>
    let entered : Option GoError × Machine W :=
      match sel.selected with
      | some t => m.SetState t.to_
      | none => (none, m)
    match entered.1 with
    | some err => ⟨Outcome.returned Result.zero (some err), entered.2, sel.world, sel.calls⟩
    | none =>
      let m1 := entered.2
      match m1.currentState with
      | none => ⟨Outcome.panicked "no current state!", m1, sel.world, sel.calls⟩
      | some cur =>
        let worked := cur.Reconcile sel.world
        match cur.OnCompletion with
        | some onCompletion =>
          let completed := onCompletion worked.2
          match completed.1 with
          | some err =>
            ⟨Outcome.returned Result.zero (some err),
              { m1 with
                logger := m1.logger ++
                  [LogEntry.errorf "error running OnCompletion for state %s: %s"
                    [cur.Name, err.msg]] },
              completed.2,
              sel.calls ++ [Call.work cur, Call.onCompletion cur]⟩
          | none =>
            ⟨Outcome.returned worked.1.1 worked.1.2, m1, completed.2,
              sel.calls ++ [Call.work cur, Call.onCompletion cur]⟩
        | none =>
          ⟨Outcome.returned worked.1.1 worked.1.2, m1, worked.2,
            sel.calls ++ [Call.work cur]⟩

/-! ## Vocabulary of the statements -/

/-- The world after the guards of `ts` have been called one after another,
starting in `w`. -/
def guardsWorld : List (transition W) → W → W
  | [], w => w
  | t :: ts, w => guardsWorld ts (t.predicate w).2

/-- Every guard of `ts`, called one after another starting in `w`, returns
`(false, nil)`. -/
def guardsDecline : List (transition W) → W → Bool
  | [], _ => true
  | t :: ts, w =>
    decide ((t.predicate w).1 = (false, none)) && guardsDecline ts (t.predicate w).2

/-- The callback calls of the work phase of a step on state `s`: the work, then
the completion hook when the state has one. -/
def workCalls (s : State W) : List (Call W) :=
  match s.OnCompletion with
  | some _ => [Call.work s, Call.onCompletion s]
  | none => [Call.work s]

/-- Whether a call is a guard call. -/
def Call.isPredicate : Call W → Bool
  | Call.predicate _ => true
  | _ => false

/-- Whether a call is a work call. -/
def Call.isWork : Call W → Bool
  | Call.work _ => true
  | _ => false

/-- Whether a call is a completion-hook call. -/
def Call.isOnCompletion : Call W → Bool
  | Call.onCompletion _ => true
  | _ => false

/-- The machine at line 49 of the source, after the `if transition != nil` block
has called `SetState` on the target of the selected edge, if there is one. -/
def Machine.enter (m : Machine W) (sel : Option (transition W)) : Machine W :=
  match sel with
  | some t => (m.SetState t.to_).2
  | none => m

/-! ## Histories of calls -/

/-- The arguments of one `AddTransition` call. -/
structure Registration (W : Type) where
  frm : State W
  to_ : State W
  predicate : W → (Bool × Option GoError) × W

/-- A sequence of `AddTransition` calls on `m`, in order. -/
def registerAll (m : Machine W) : List (Registration W) → Machine W
  | [] => m
  | r :: rs => registerAll (m.AddTransition r.frm r.to_ r.predicate) rs

/-- One call on a machine by its owner. -/
inductive Op (W : Type) where
  | addTransition (r : Registration W)
  | setState (s : State W)
  | reconcile

/-- The effect of one call on the machine and the world; `none` when the call
panicked, which ends the process. -/
def Op.apply (op : Op W) (m : Machine W) (w : W) : Option (Machine W × W) :=
  match op with
  | Op.addTransition r => some (m.AddTransition r.frm r.to_ r.predicate, w)
  | Op.setState s => some ((m.SetState s).2, w)
  | Op.reconcile =>
    match (m.Reconcile w).out with
    | Outcome.panicked _ => none
    | Outcome.returned _ _ => some ((m.Reconcile w).m, (m.Reconcile w).world)

/-- A sequence of calls, in order, from machine `m` and world `w`. -/
def runOps : List (Op W) → Machine W → W → Option (Machine W × W)
  | [], m, w => some (m, w)
  | op :: ops, m, w =>
    match op.apply m w with
    | none => none
    | some next => runOps ops next.1 next.2

/-- The edges that the `AddTransition` calls of a history registered with source
name `name`, in registration order. -/
def registeredFrom (name : String) : List (Op W) → List (transition W)
  | [] => []
  | Op.addTransition r :: ops =>
    if r.frm.Name = name then ⟨r.to_, r.predicate⟩ :: registeredFrom name ops
    else registeredFrom name ops
  | _ :: ops => registeredFrom name ops

/-- The result of consecutive `Reconcile` calls: the outcomes in order, the
machine and the world at the end, and all callback calls in order. -/
structure RunResult (W : Type) where
  outs : List Outcome
  m : Machine W
  world : W
  calls : List (Call W)

/-- The driving loop calling `Reconcile` `n` times in a row; a panic ends the
process, so no call follows it. -/
def Machine.ReconcileTimes : Nat → Machine W → W → RunResult W
  | 0, m, w => ⟨[], m, w, []⟩
  | n + 1, m, w =>
    match (m.Reconcile w).out with
    | Outcome.panicked msg =>
      ⟨[Outcome.panicked msg], (m.Reconcile w).m, (m.Reconcile w).world, (m.Reconcile w).calls⟩
    | Outcome.returned res err =>
      let rest := Machine.ReconcileTimes n (m.Reconcile w).m (m.Reconcile w).world
      ⟨Outcome.returned res err :: rest.outs, rest.m, rest.world,
        (m.Reconcile w).calls ++ rest.calls⟩

/-! ## Example machines

The callbacks of the examples append a tag to a journal, the world they close
over, so that the journal shows which callbacks ran and in which order. -/

/-- A work function that writes `tag` to the journal and returns `(res, err)`. -/
def exWork (tag : String) (res : Result) (err : Option GoError) :
    List String → (Result × Option GoError) × List String :=
  fun journal => ((res, err), journal ++ [tag])

/-- A guard that writes `tag` to the journal and returns `(ok, err)`. -/
def exGuard (tag : String) (ok : Bool) (err : Option GoError) :
    List String → (Bool × Option GoError) × List String :=
  fun journal => ((ok, err), journal ++ [tag])

/-- A completion hook that writes `tag` to the journal and returns `err`. -/
def exHook (tag : String) (err : Option GoError) :
    List String → Option GoError × List String :=
  fun journal => (err, journal ++ [tag])

/-- State `A`: its work returns `(ResultX, nil)`, it has no completion hook. -/
def exA : State (List String) :=
  ⟨"A", exWork "work A" ⟨false, 10⟩ none, none⟩

/-- State `B`: its work returns `(ResultY, nil)`, its completion hook succeeds. -/
def exB : State (List String) :=
  ⟨"B", exWork "work B" ⟨true, 20⟩ none, some (exHook "done B" none)⟩

/-- State `C`: its work returns a result and an error, it has no hook. -/
def exC : State (List String) :=
  ⟨"C", exWork "work C" ⟨true, 30⟩ (some ⟨"work failed"⟩), none⟩

/-- An edge to `A` whose guard returns `(false, nil)`. -/
def exE1 : transition (List String) := ⟨exA, exGuard "guard 1" false none⟩

/-- An edge to `B` whose guard returns `(true, nil)`. -/
def exE2 : transition (List String) := ⟨exB, exGuard "guard 2" true none⟩

/-- An edge to `C` whose guard returns `(true, nil)`. -/
def exE3 : transition (List String) := ⟨exC, exGuard "guard 3" true none⟩

/-- The machine with the edges `exE1`, `exE2`, `exE3` registered from `A`, in
this order, and then set to state `A`. -/
def exMachine : Machine (List String) :=
  ((((NewStateMachine []).AddTransition exA exE1.to_ exE1.predicate).AddTransition
    exA exE2.to_ exE2.predicate).AddTransition exA exE3.to_ exE3.predicate).SetState exA |>.2

/-- An edge to `C` whose guard returns `true` together with an error. -/
def exEF : transition (List String) :=
  ⟨exC, exGuard "guard F" true (some ⟨"guard failed"⟩)⟩

/-- The machine with the edges `exE1`, `exEF`, `exE3` registered from `A`, in
this order, and then set to state `A`. -/
def exFailing : Machine (List String) :=
  ((((NewStateMachine []).AddTransition exA exE1.to_ exE1.predicate).AddTransition
    exA exEF.to_ exEF.predicate).AddTransition exA exE3.to_ exE3.predicate).SetState exA |>.2

/-- State `B` with a completion hook that fails. -/
def exBH : State (List String) :=
  ⟨"B", exWork "work B" ⟨true, 20⟩ none, some (exHook "done B" (some ⟨"completion failed"⟩))⟩

/-- An edge to `exBH` whose guard always returns `(true, nil)`. -/
def exEH : transition (List String) := ⟨exBH, exGuard "guard H" true none⟩

/-- The machine with the single edge `exEH` registered from `A`, set to `A`. -/
def exHookFails : Machine (List String) :=
  ((NewStateMachine []).AddTransition exA exEH.to_ exEH.predicate).SetState exA |>.2

/-- The machine with the single edge `exE2` registered from `A`, set to `A`. -/
def exScenario : Machine (List String) :=
  ((NewStateMachine []).AddTransition exA exE2.to_ exE2.predicate).SetState exA |>.2

/-- The machine with the single edge `exE3` registered from `A`, set to `A`. -/
def exWorkFails : Machine (List String) :=
  ((NewStateMachine []).AddTransition exA exE3.to_ exE3.predicate).SetState exA |>.2

/-- A state named `A` like `exA`, with another work function and a hook. -/
def exA2 : State (List String) :=
  ⟨"A", exWork "other work" ⟨true, 99⟩ none, some (exHook "other hook" none)⟩

/-- The machine with the single edge `exE1`, whose guard declines, registered
from `A`, set to `A`. -/
def exTerminal : Machine (List String) :=
  ((NewStateMachine []).AddTransition exA exE1.to_ exE1.predicate).SetState exA |>.2

/-- A history: two edges registered from `A`, the state set to `A`, one edge
registered from `B`, a third edge registered from `A`, and one step. -/
def exOps : List (Op (List String)) :=
  [Op.addTransition ⟨exA, exE1.to_, exE1.predicate⟩,
    Op.addTransition ⟨exA, exE2.to_, exE2.predicate⟩,
    Op.setState exA,
    Op.addTransition ⟨exB, exE3.to_, exE3.predicate⟩,
    Op.addTransition ⟨exA, exE3.to_, exE3.predicate⟩,
    Op.reconcile]

/-- The machine after the history `exOps` on a new machine. -/
def exAfterOps : Machine (List String) :=
  match runOps exOps (NewStateMachine []) [] with
  | some next => next.1
  | none => NewStateMachine []

/-- A state named `B` like `exB`, with another work function and no hook. -/
def exB2 : State (List String) :=
  ⟨"B", exWork "other work B" ⟨true, 77⟩ none, none⟩

/-- The machine on which the edge `exE2` from `A` to `exB` is registered, then
an edge from `exB2`, which re-registers the name `B`, and which is then set to
`A`. -/
def exReRegistered : Machine (List String) :=
  (((NewStateMachine []).AddTransition exA exE2.to_ exE2.predicate).AddTransition
    exB2 exE3.to_ exE3.predicate).SetState exA |>.2

/-- An edge to `exA2`, a state named `A`, whose guard returns `(true, nil)`. -/
def exELoop : transition (List String) := ⟨exA2, exGuard "guard L" true none⟩

/-- The machine with the single edge `exELoop` registered from `A`, set to
`exA`: the edge leads to a state of the current name with another record. -/
def exSelfLoop : Machine (List String) :=
  ((NewStateMachine []).AddTransition exA exELoop.to_ exELoop.predicate).SetState exA |>.2

/-- The machine set to `A` first, on which the edge `exE2` from `A` is
registered afterwards. -/
def exStale : Machine (List String) :=
  ((NewStateMachine []).SetState exA |>.2).AddTransition exA exE2.to_ exE2.predicate

/-! ## Lemmas on the operations -/

theorem SetState_err (m : Machine W) (s : State W) : (m.SetState s).1 = none := by
  unfold Machine.SetState
  cases m.currentState with
  | none => rfl
  | some cur => by_cases h : cur.Name = s.Name <;> simp [h]

theorem SetState_same (m : Machine W) (s cur : State W) (hc : m.currentState = some cur)
    (hn : cur.Name = s.Name) : m.SetState s = (none, m) := by
  simp [Machine.SetState, hc, hn]

theorem SetState_other (m : Machine W) (s cur : State W) (hc : m.currentState = some cur)
    (hn : cur.Name ≠ s.Name) :
    (m.SetState s).2 =
      { m with
        logger := m.logger ++
          [LogEntry.debugf "Transitioning from %s to %s." [cur.Name, s.Name]]
        currentState := some s
        currentTransitions := mapGet m.allTransitions s.Name } := by
  simp [Machine.SetState, hc, hn]

theorem SetState_first (m : Machine W) (s : State W) (hc : m.currentState = none) :
    (m.SetState s).2 =
      { m with
        logger := m.logger ++ [LogEntry.debugf "Setting starting state %s." [s.Name]]
        currentState := some s
        currentTransitions := mapGet m.allTransitions s.Name } := by
  simp [Machine.SetState, hc]

theorem loop_cons_err (t : transition W) (ts : List (transition W)) (w : W) (err : GoError)
    (h : (t.predicate w).1.2 = some err) :
    Machine.getTransition.loop (t :: ts) w =
      ⟨none, some err, (t.predicate w).2, [Call.predicate t]⟩ := by
  simp [Machine.getTransition.loop, h]

theorem loop_cons_true (t : transition W) (ts : List (transition W)) (w : W)
    (h : (t.predicate w).1 = (true, none)) :
    Machine.getTransition.loop (t :: ts) w =
      ⟨some t, none, (t.predicate w).2, [Call.predicate t]⟩ := by
  simp [Machine.getTransition.loop, h]

theorem loop_cons_false (t : transition W) (ts : List (transition W)) (w : W)
    (h : (t.predicate w).1 = (false, none)) :
    Machine.getTransition.loop (t :: ts) w =
      ⟨(Machine.getTransition.loop ts (t.predicate w).2).selected,
        (Machine.getTransition.loop ts (t.predicate w).2).err,
        (Machine.getTransition.loop ts (t.predicate w).2).world,
        Call.predicate t :: (Machine.getTransition.loop ts (t.predicate w).2).calls⟩ := by
  simp [Machine.getTransition.loop, h]

theorem loop_append_decline (pre rest : List (transition W)) (w : W)
    (h : guardsDecline pre w = true) :
    Machine.getTransition.loop (pre ++ rest) w =
      ⟨(Machine.getTransition.loop rest (guardsWorld pre w)).selected,
        (Machine.getTransition.loop rest (guardsWorld pre w)).err,
        (Machine.getTransition.loop rest (guardsWorld pre w)).world,
        pre.map Call.predicate ++
          (Machine.getTransition.loop rest (guardsWorld pre w)).calls⟩ := by
  induction pre generalizing w with
  | nil => simp [guardsWorld]
  | cons t ts ih =>
    simp only [guardsDecline, Bool.and_eq_true, decide_eq_true_eq] at h
    rw [List.cons_append, loop_cons_false _ _ _ h.1, ih _ h.2]
    simp [guardsWorld]

theorem loop_calls_predicate (ts : List (transition W)) (w : W) :
    ∀ c ∈ (Machine.getTransition.loop ts w).calls, ∃ t, c = Call.predicate t := by
  induction ts generalizing w with
  | nil => simp [Machine.getTransition.loop]
  | cons t ts ih =>
    intro c hc
    simp only [Machine.getTransition.loop] at hc
    split at hc
    · simp at hc; exact ⟨t, hc⟩
    · split at hc
      · simp at hc; exact ⟨t, hc⟩
      · simp at hc
        rcases hc with hc | hc
        · exact ⟨t, hc⟩
        · exact ih _ c hc

theorem Reconcile_err (m : Machine W) (w : W) (e : GoError)
    (h : (m.getTransition w).err = some e) :
    m.Reconcile w =
      ⟨Outcome.returned Result.zero (some e), m, (m.getTransition w).world,
        (m.getTransition w).calls⟩ := by
  simp [Machine.Reconcile, h]

theorem Reconcile_panic (m : Machine W) (w : W) (h : (m.getTransition w).err = none)
    (hc : (m.enter (m.getTransition w).selected).currentState = none) :
    m.Reconcile w =
      ⟨Outcome.panicked "no current state!", m.enter (m.getTransition w).selected,
        (m.getTransition w).world, (m.getTransition w).calls⟩ := by
  unfold Machine.Reconcile
  simp only [h]
  cases hs : (m.getTransition w).selected with
  | none =>
    simp only [hs, Machine.enter] at hc
    simp [hc, Machine.enter]
  | some t =>
    simp only [hs, Machine.enter] at hc
    simp [SetState_err, hc, Machine.enter]

theorem Reconcile_entered (m : Machine W) (w : W) (h : (m.getTransition w).err = none) :
    m.Reconcile w =
      match (m.enter (m.getTransition w).selected).currentState with
      | none =>
        ⟨Outcome.panicked "no current state!", m.enter (m.getTransition w).selected,
          (m.getTransition w).world, (m.getTransition w).calls⟩
      | some cur =>
        match cur.OnCompletion with
        | some onCompletion =>
          match (onCompletion (cur.Reconcile (m.getTransition w).world).2).1 with
          | some err =>
            ⟨Outcome.returned Result.zero (some err),
              { m.enter (m.getTransition w).selected with
                logger := (m.enter (m.getTransition w).selected).logger ++
                  [LogEntry.errorf "error running OnCompletion for state %s: %s"
                    [cur.Name, err.msg]] },
              (onCompletion (cur.Reconcile (m.getTransition w).world).2).2,
              (m.getTransition w).calls ++ [Call.work cur, Call.onCompletion cur]⟩
          | none =>
            ⟨Outcome.returned (cur.Reconcile (m.getTransition w).world).1.1
                (cur.Reconcile (m.getTransition w).world).1.2,
              m.enter (m.getTransition w).selected,
              (onCompletion (cur.Reconcile (m.getTransition w).world).2).2,
              (m.getTransition w).calls ++ [Call.work cur, Call.onCompletion cur]⟩
        | none =>
          ⟨Outcome.returned (cur.Reconcile (m.getTransition w).world).1.1
              (cur.Reconcile (m.getTransition w).world).1.2,
            m.enter (m.getTransition w).selected,
            (cur.Reconcile (m.getTransition w).world).2,
            (m.getTransition w).calls ++ [Call.work cur]⟩ := by
  unfold Machine.Reconcile
  simp only [h]
  cases hs : (m.getTransition w).selected with
  | none => simp [Machine.enter]
  | some t => simp [SetState_err, Machine.enter]

theorem Reconcile_plain (m : Machine W) (w : W) (cur : State W)
    (h : (m.getTransition w).err = none)
    (hc : (m.enter (m.getTransition w).selected).currentState = some cur)
    (ho : cur.OnCompletion = none) :
    m.Reconcile w =
      ⟨Outcome.returned (cur.Reconcile (m.getTransition w).world).1.1
          (cur.Reconcile (m.getTransition w).world).1.2,
        m.enter (m.getTransition w).selected,
        (cur.Reconcile (m.getTransition w).world).2,
        (m.getTransition w).calls ++ [Call.work cur]⟩ := by
  rw [Reconcile_entered m w h]
  simp [hc, ho]

theorem Reconcile_completed (m : Machine W) (w : W) (cur : State W)
    (g : W → Option GoError × W)
    (h : (m.getTransition w).err = none)
    (hc : (m.enter (m.getTransition w).selected).currentState = some cur)
    (ho : cur.OnCompletion = some g)
    (hg : (g (cur.Reconcile (m.getTransition w).world).2).1 = none) :
    m.Reconcile w =
      ⟨Outcome.returned (cur.Reconcile (m.getTransition w).world).1.1
          (cur.Reconcile (m.getTransition w).world).1.2,
        m.enter (m.getTransition w).selected,
        (g (cur.Reconcile (m.getTransition w).world).2).2,
        (m.getTransition w).calls ++ [Call.work cur, Call.onCompletion cur]⟩ := by
  rw [Reconcile_entered m w h]
  simp [hc, ho, hg]

theorem Reconcile_completion_failed (m : Machine W) (w : W) (cur : State W)
    (g : W → Option GoError × W) (e : GoError)
    (h : (m.getTransition w).err = none)
    (hc : (m.enter (m.getTransition w).selected).currentState = some cur)
    (ho : cur.OnCompletion = some g)
    (hg : (g (cur.Reconcile (m.getTransition w).world).2).1 = some e) :
    m.Reconcile w =
      ⟨Outcome.returned Result.zero (some e),
        { m.enter (m.getTransition w).selected with
          logger := (m.enter (m.getTransition w).selected).logger ++
            [LogEntry.errorf "error running OnCompletion for state %s: %s"
              [cur.Name, e.msg]] },
        (g (cur.Reconcile (m.getTransition w).world).2).2,
        (m.getTransition w).calls ++ [Call.work cur, Call.onCompletion cur]⟩ := by
  rw [Reconcile_entered m w h]
  simp [hc, ho, hg]

/-- A step made a work call on `cur` exactly when no guard failed and `cur` is
the current state once the selected edge, if any, has been entered. -/
theorem work_mem_calls_iff (m : Machine W) (w : W) (cur : State W) :
    Call.work cur ∈ (m.Reconcile w).calls ↔
      (m.getTransition w).err = none ∧
        (m.enter (m.getTransition w).selected).currentState = some cur := by
  have hp := loop_calls_predicate m.currentTransitions w
  have hnot : Call.work cur ∉ (m.getTransition w).calls := by
    intro hmem
    obtain ⟨t, ht⟩ := hp _ hmem
    cases ht
  cases he : (m.getTransition w).err with
  | some e =>
    rw [Reconcile_err m w e he]
    simp [hnot]
  | none =>
    have key : ∀ l : List (Call W), (Call.work cur ∈ (m.getTransition w).calls ++ l ↔
        Call.work cur ∈ l) := by
      intro l
      simp [hnot]
    cases hcs : (m.enter (m.getTransition w).selected).currentState with
    | none =>
      rw [Reconcile_panic m w he hcs]
      simp [hnot]
    | some c =>
      cases hoc : c.OnCompletion with
      | none =>
        rw [Reconcile_plain m w c he hcs hoc]
        simp only [key, List.mem_singleton, Call.work.injEq, Option.some.injEq, true_and]
        exact eq_comm
      | some g =>
        cases hg : (g (c.Reconcile (m.getTransition w).world).2).1 with
        | none =>
          rw [Reconcile_completed m w c g he hcs hoc hg]
          simp only [key, List.mem_cons, Call.work.injEq, Option.some.injEq, true_and,
            reduceCtorEq, List.not_mem_nil, or_false]
          exact eq_comm
        | some e =>
          rw [Reconcile_completion_failed m w c g e he hcs hoc hg]
          simp only [key, List.mem_cons, Call.work.injEq, Option.some.injEq, true_and,
            reduceCtorEq, List.not_mem_nil, or_false]
          exact eq_comm

/-- What a step does once no guard failed and `cur` is the current state after
the selected edge, if any, was entered. -/
theorem Reconcile_reach (m : Machine W) (w : W) (cur : State W)
    (h : (m.getTransition w).err = none)
    (hc : (m.enter (m.getTransition w).selected).currentState = some cur) :
    (m.Reconcile w).m.currentState = some cur ∧
    (m.Reconcile w).m.currentTransitions =
      (m.enter (m.getTransition w).selected).currentTransitions ∧
    (m.Reconcile w).m.allTransitions = (m.enter (m.getTransition w).selected).allTransitions ∧
    (m.Reconcile w).m.States = (m.enter (m.getTransition w).selected).States ∧
    (m.Reconcile w).calls = (m.getTransition w).calls ++ workCalls cur ∧
    (∃ res err, (m.Reconcile w).out = Outcome.returned res err) ∧
    ((cur.OnCompletion = none ∨ ∃ g, cur.OnCompletion = some g ∧
        (g (cur.Reconcile (m.getTransition w).world).2).1 = none) →
      (m.Reconcile w).out =
        Outcome.returned (cur.Reconcile (m.getTransition w).world).1.1
          (cur.Reconcile (m.getTransition w).world).1.2) ∧
    (∀ g e, cur.OnCompletion = some g →
      (g (cur.Reconcile (m.getTransition w).world).2).1 = some e →
      (m.Reconcile w).out = Outcome.returned Result.zero (some e)) := by
  cases hoc : cur.OnCompletion with
  | none =>
    rw [Reconcile_plain m w cur h hc hoc]
    refine ⟨hc, rfl, rfl, rfl, by simp [workCalls, hoc], ⟨_, _, rfl⟩, fun _ => rfl, ?_⟩
    intro g e hg
    cases hg
  | some g =>
    cases hg : (g (cur.Reconcile (m.getTransition w).world).2).1 with
    | none =>
      rw [Reconcile_completed m w cur g h hc hoc hg]
      refine ⟨hc, rfl, rfl, rfl, by simp [workCalls, hoc], ⟨_, _, rfl⟩, fun _ => rfl, ?_⟩
      intro g2 e hg2 he
      cases hg2
      rw [hg] at he
      cases he
    | some err =>
      rw [Reconcile_completion_failed m w cur g err h hc hoc hg]
      refine ⟨hc, rfl, rfl, rfl, by simp [workCalls, hoc], ⟨_, _, rfl⟩, ?_, ?_⟩
      · intro hok
        rcases hok with hno | ⟨g2, hg2, hn⟩
        · cases hno
        · cases hg2
          rw [hg] at hn
          cases hn
      · intro g2 e hg2 he
        cases hg2
        rw [hg] at he
        cases he
        rfl

theorem loop_selected_err (ts : List (transition W)) (w : W) (e : transition W)
    (h : (Machine.getTransition.loop ts w).selected = some e) :
    (Machine.getTransition.loop ts w).err = none := by
  induction ts generalizing w with
  | nil => rfl
  | cons t ts ih =>
    simp only [Machine.getTransition.loop] at h ⊢
    split
    · rename_i err herr
      simp [herr] at h
    · rename_i hnone
      simp only [hnone] at h
      by_cases hb : (t.predicate w).1.1 = true
      · simp [hb]
      · simp only [hb] at h ⊢
        exact ih _ h

theorem loop_all_decline (ts : List (transition W)) (w : W)
    (h : guardsDecline ts w = true) :
    Machine.getTransition.loop ts w =
      ⟨none, none, guardsWorld ts w, ts.map Call.predicate⟩ := by
  have := loop_append_decline ts [] w h
  simpa [Machine.getTransition.loop] using this

theorem guardsDecline_of_forall (ts : List (transition W)) (w : W)
    (h : ∀ t ∈ ts, ∀ v, (t.predicate v).1 = (false, none)) :
    guardsDecline ts w = true := by
  induction ts generalizing w with
  | nil => rfl
  | cons t ts ih =>
    simp only [guardsDecline, Bool.and_eq_true, decide_eq_true_eq]
    exact ⟨h t (List.mem_cons_self _ _) w,
      ih _ (fun x hx => h x (List.mem_cons_of_mem _ hx))⟩

/-- A step in which every cached guard declines: the machine stays in its
current state and runs the work phase of that state. -/
theorem Reconcile_stay (m : Machine W) (w : W) (S : State W)
    (hS : m.currentState = some S)
    (hd : guardsDecline m.currentTransitions w = true) :
    (m.Reconcile w).m.currentState = some S ∧
    (m.Reconcile w).m.currentTransitions = m.currentTransitions ∧
    (m.Reconcile w).m.allTransitions = m.allTransitions ∧
    (m.Reconcile w).m.States = m.States ∧
    (m.Reconcile w).calls = m.currentTransitions.map Call.predicate ++ workCalls S ∧
    (∃ res err, (m.Reconcile w).out = Outcome.returned res err) ∧
    ((S.OnCompletion = none ∨ ∃ g, S.OnCompletion = some g ∧
        (g (S.Reconcile (guardsWorld m.currentTransitions w)).2).1 = none) →
      (m.Reconcile w).out =
        Outcome.returned (S.Reconcile (guardsWorld m.currentTransitions w)).1.1
          (S.Reconcile (guardsWorld m.currentTransitions w)).1.2) := by
  have hloop : m.getTransition w =
      ⟨none, none, guardsWorld m.currentTransitions w,
        m.currentTransitions.map Call.predicate⟩ :=
    loop_all_decline m.currentTransitions w hd
  have herr : (m.getTransition w).err = none := by rw [hloop]
  have henter : m.enter (m.getTransition w).selected = m := by rw [hloop]; rfl
  have hcur : (m.enter (m.getTransition w).selected).currentState = some S := by
    rw [henter]; exact hS
  have hr := Reconcile_reach m w S herr hcur
  rw [henter] at hr
  rw [hloop] at hr
  exact ⟨hr.1, hr.2.1, hr.2.2.1, hr.2.2.2.1, hr.2.2.2.2.1, hr.2.2.2.2.2.1, hr.2.2.2.2.2.2.1⟩

theorem filter_isWork_stay (ts : List (transition W)) (S : State W) :
    (ts.map Call.predicate ++ workCalls S).filter Call.isWork = [Call.work S] := by
  have h1 : (ts.map (Call.predicate : _ → Call W)).filter Call.isWork = [] := by
    induction ts with
    | nil => rfl
    | cons x xs ih => simp [Call.isWork]
  rw [List.filter_append, h1]
  cases hoc : S.OnCompletion <;> simp [workCalls, hoc, Call.isWork]

/-- Consecutive steps of a machine whose cached guards decline each time they
are called during these steps. -/
theorem ReconcileTimes_terminal (n : Nat) (m : Machine W) (w : W) (S : State W)
    (hS : m.currentState = some S)
    (hg : ∀ k, k < n →
      guardsDecline m.currentTransitions (m.ReconcileTimes k w).world = true) :
    (m.ReconcileTimes n w).m.currentState = some S ∧
    (m.ReconcileTimes n w).m.currentTransitions = m.currentTransitions ∧
    (m.ReconcileTimes n w).m.allTransitions = m.allTransitions ∧
    (m.ReconcileTimes n w).m.States = m.States ∧
    (m.ReconcileTimes n w).outs.length = n ∧
    (∀ o ∈ (m.ReconcileTimes n w).outs, ∃ res err, o = Outcome.returned res err) ∧
    (m.ReconcileTimes n w).calls.filter Call.isWork = List.replicate n (Call.work S) ∧
    (∀ Y, (∀ v, (S.Reconcile v).1 = (Y, none)) →
      (S.OnCompletion = none ∨ ∃ g, S.OnCompletion = some g ∧ ∀ v, (g v).1 = none) →
      (m.ReconcileTimes n w).outs = List.replicate n (Outcome.returned Y none)) := by
  induction n generalizing m w with
  | zero => simp [Machine.ReconcileTimes, hS]
  | succ n ih =>
    have hd : guardsDecline m.currentTransitions w = true := hg 0 (Nat.succ_pos n)
    obtain ⟨h1, h2, h3, h4, h5, ⟨res, err, h6⟩, h7⟩ := Reconcile_stay m w S hS hd
    have hg1 : ∀ k, k < n → guardsDecline (m.Reconcile w).m.currentTransitions
        (((m.Reconcile w).m).ReconcileTimes k (m.Reconcile w).world).world = true := by
      intro k hk
      have hk1 := hg (k + 1) (Nat.succ_lt_succ hk)
      simp only [Machine.ReconcileTimes, h6] at hk1
      rw [h2]
      exact hk1
    obtain ⟨i1, i2, i3, i4, i5, i6, i7, i8⟩ := ih (m.Reconcile w).m (m.Reconcile w).world h1 hg1
    simp only [Machine.ReconcileTimes, h6]
    refine ⟨i1, by rw [i2, h2], by rw [i3, h3], by rw [i4, h4], by simp [i5], ?_, ?_, ?_⟩
    · intro o ho
      rcases List.mem_cons.mp ho with rfl | ho
      · exact ⟨res, err, rfl⟩
      · exact i6 o ho
    · rw [List.filter_append, i7, h5, filter_isWork_stay]
      rfl
    · intro Y hY hok
      have hout : (m.Reconcile w).out = Outcome.returned Y none := by
        rw [h7 ?_]
        · rw [hY]
        · rcases hok with hno | ⟨g, hgs, hgn⟩
          · exact Or.inl hno
          · exact Or.inr ⟨g, hgs, hgn _⟩
      rw [h6] at hout
      rw [i8 Y hY hok, List.replicate_succ, hout]

theorem Reconcile_currentState (m : Machine W) (w : W)
    (h : (m.getTransition w).err = none) :
    (m.Reconcile w).m.currentState =
      (m.enter (m.getTransition w).selected).currentState := by
  cases hcs : (m.enter (m.getTransition w).selected).currentState with
  | none => rw [Reconcile_panic m w h hcs]; exact hcs
  | some c => exact (Reconcile_reach m w c h hcs).1

/-! ## Lemmas on histories -/

theorem SetState_allTransitions (m : Machine W) (s : State W) :
    (m.SetState s).2.allTransitions = m.allTransitions := by
  unfold Machine.SetState
  cases m.currentState with
  | none => rfl
  | some cur => by_cases h : cur.Name = s.Name <;> simp [h]

theorem SetState_States (m : Machine W) (s : State W) :
    (m.SetState s).2.States = m.States := by
  unfold Machine.SetState
  cases m.currentState with
  | none => rfl
  | some cur => by_cases h : cur.Name = s.Name <;> simp [h]

/-- What `SetState` does when it changes the current state. -/
theorem SetState_changes (m : Machine W) (s : State W)
    (h : m.currentState.map State.Name ≠ some s.Name) :
    (m.SetState s).2.currentState = some s ∧
      (m.SetState s).2.currentTransitions = mapGet m.allTransitions s.Name := by
  cases hc : m.currentState with
  | none => rw [SetState_first m s hc]; exact ⟨rfl, rfl⟩
  | some cur =>
    have hn : cur.Name ≠ s.Name := by
      intro hn
      apply h
      simp [hc, hn]
    rw [SetState_other m s cur hc hn]
    exact ⟨rfl, rfl⟩

theorem enter_allTransitions (m : Machine W) (sel : Option (transition W)) :
    (m.enter sel).allTransitions = m.allTransitions := by
  cases sel with
  | none => rfl
  | some t => exact SetState_allTransitions m t.to_

theorem enter_States (m : Machine W) (sel : Option (transition W)) :
    (m.enter sel).States = m.States := by
  cases sel with
  | none => rfl
  | some t => exact SetState_States m t.to_

theorem Reconcile_allTransitions (m : Machine W) (w : W) :
    (m.Reconcile w).m.allTransitions = m.allTransitions := by
  cases he : (m.getTransition w).err with
  | some e => rw [Reconcile_err m w e he]
  | none =>
    cases hcs : (m.enter (m.getTransition w).selected).currentState with
    | none => rw [Reconcile_panic m w he hcs]; exact enter_allTransitions m _
    | some c =>
      rw [(Reconcile_reach m w c he hcs).2.2.1]
      exact enter_allTransitions m _

theorem Reconcile_States (m : Machine W) (w : W) :
    (m.Reconcile w).m.States = m.States := by
  cases he : (m.getTransition w).err with
  | some e => rw [Reconcile_err m w e he]
  | none =>
    cases hcs : (m.enter (m.getTransition w).selected).currentState with
    | none => rw [Reconcile_panic m w he hcs]; exact enter_States m _
    | some c =>
      rw [(Reconcile_reach m w c he hcs).2.2.2.1]
      exact enter_States m _

theorem AddTransition_mapGet (m : Machine W) (frm to_ : State W)
    (p : W → (Bool × Option GoError) × W) (name : String) :
    mapGet (m.AddTransition frm to_ p).allTransitions name =
      if frm.Name = name then mapGet m.allTransitions name ++ [⟨to_, p⟩]
      else mapGet m.allTransitions name := by
  unfold Machine.AddTransition
  by_cases h : frm.Name = name
  · subst h
    cases hm : m.allTransitions frm.Name <;> simp [mapGet, mapSet, hm]
  · have h2 : ¬ name = frm.Name := fun h3 => h h3.symm
    cases hm : m.allTransitions frm.Name <;> simp [mapGet, mapSet, h, h2]

theorem AddTransition_currentState (m : Machine W) (frm to_ : State W)
    (p : W → (Bool × Option GoError) × W) :
    (m.AddTransition frm to_ p).currentState = m.currentState := rfl

theorem AddTransition_currentTransitions (m : Machine W) (frm to_ : State W)
    (p : W → (Bool × Option GoError) × W) :
    (m.AddTransition frm to_ p).currentTransitions = m.currentTransitions := rfl

theorem registerAll_current (m : Machine W) (regs : List (Registration W)) :
    (registerAll m regs).currentState = m.currentState ∧
      (registerAll m regs).currentTransitions = m.currentTransitions := by
  induction regs generalizing m with
  | nil => exact ⟨rfl, rfl⟩
  | cons r rs ih =>
    simp only [registerAll]
    exact ih (m.AddTransition r.frm r.to_ r.predicate)

/-- The edge map of a machine after a history is the edge map before it with
the registered edges appended, name by name. -/
theorem runOps_mapGet (ops : List (Op W)) (m : Machine W) (w : W) (m1 : Machine W) (w1 : W)
    (h : runOps ops m w = some (m1, w1)) (name : String) :
    mapGet m1.allTransitions name =
      mapGet m.allTransitions name ++ registeredFrom name ops := by
  induction ops generalizing m w with
  | nil =>
    simp only [runOps, Option.some.injEq, Prod.mk.injEq] at h
    rw [← h.1]
    simp [registeredFrom]
  | cons op ops ih =>
    simp only [runOps] at h
    cases hop : op.apply m w with
    | none => simp [hop] at h
    | some next =>
      simp only [hop] at h
      have hrec := ih next.1 next.2 h
      cases op with
      | addTransition r =>
        simp only [Op.apply, Option.some.injEq] at hop
        rw [hrec, ← hop]
        simp only [AddTransition_mapGet, registeredFrom]
        by_cases hn : r.frm.Name = name <;> simp [hn]
      | setState s =>
        simp only [Op.apply, Option.some.injEq] at hop
        rw [hrec, ← hop]
        simp only [registeredFrom, mapGet, SetState_allTransitions]
      | reconcile =>
        simp only [Op.apply] at hop
        split at hop
        · cases hop
        · simp only [Option.some.injEq] at hop
          rw [hrec, ← hop]
          simp only [registeredFrom, mapGet, Reconcile_allTransitions]

/-! ## Lemmas on registration and on the calls of a step -/

theorem AddTransition_allTransitions_self (m : Machine W) (frm to_ : State W)
    (p : W → (Bool × Option GoError) × W) :
    (m.AddTransition frm to_ p).allTransitions frm.Name =
      some (mapGet m.allTransitions frm.Name ++ [⟨to_, p⟩]) := by
  unfold Machine.AddTransition
  cases hm : m.allTransitions frm.Name <;> simp [mapGet, mapSet, hm]

theorem AddTransition_allTransitions_other (m : Machine W) (frm to_ : State W)
    (p : W → (Bool × Option GoError) × W) (name : String) (h : name ≠ frm.Name) :
    (m.AddTransition frm to_ p).allTransitions name = m.allTransitions name := by
  unfold Machine.AddTransition
  cases hm : m.allTransitions frm.Name <;> simp [mapSet, h]

theorem AddTransition_States (m : Machine W) (frm to_ : State W)
    (p : W → (Bool × Option GoError) × W) (name : String) :
    (m.AddTransition frm to_ p).States name =
      if name = to_.Name then some to_
      else if name = frm.Name then some frm
      else m.States name := by
  simp [Machine.AddTransition, mapSet]

theorem work_mem_workCalls (s c : State W) (h : Call.work s ∈ workCalls c) : s = c := by
  cases hoc : c.OnCompletion <;> simp [workCalls, hoc] at h <;> exact h

theorem onCompletion_mem_workCalls (s c : State W)
    (h : Call.onCompletion s ∈ workCalls c) : s = c ∧ c.OnCompletion ≠ none := by
  cases hoc : c.OnCompletion <;> simp [workCalls, hoc] at h
  exact ⟨h, by simp⟩

/-- A step calls the completion hook of `s` only if no guard failed and `s` is
the current state once the selected edge, if any, has been entered. -/
theorem onCompletion_mem_calls (m : Machine W) (w : W) (s : State W)
    (h : Call.onCompletion s ∈ (m.Reconcile w).calls) :
    (m.getTransition w).err = none ∧
      (m.enter (m.getTransition w).selected).currentState = some s := by
  have hp := loop_calls_predicate m.currentTransitions w
  have hnot : Call.onCompletion s ∉ (m.getTransition w).calls := by
    intro hmem
    obtain ⟨t, ht⟩ := hp _ hmem
    cases ht
  cases he : (m.getTransition w).err with
  | some e =>
    rw [Reconcile_err m w e he] at h
    exact absurd h hnot
  | none =>
    cases hcs : (m.enter (m.getTransition w).selected).currentState with
    | none =>
      rw [Reconcile_panic m w he hcs] at h
      exact absurd h hnot
    | some c =>
      rw [(Reconcile_reach m w c he hcs).2.2.2.2.1] at h
      rcases List.mem_append.mp h with h1 | h1
      · exact absurd h1 hnot
      · rw [(onCompletion_mem_workCalls s c h1).1]
        exact ⟨rfl, rfl⟩

/-- The guard calls of `getTransition` are a prefix of the list of edges it
iterates. -/
theorem loop_calls_initial_segment (ts : List (transition W)) (w : W) :
    (Machine.getTransition.loop ts w).calls <+: ts.map Call.predicate := by
  induction ts generalizing w with
  | nil => simp [Machine.getTransition.loop]
  | cons t ts ih =>
    simp only [Machine.getTransition.loop]
    split
    · simp [List.prefix_iff_eq_append]
    · split
      · simp [List.prefix_iff_eq_append]
      · simp only [List.map_cons]
        exact (List.prefix_cons_inj _).mpr (ih _)

/-- The edge selected by `getTransition`, if any, is one of the edges it
iterates. -/
theorem loop_selected_mem (ts : List (transition W)) (w : W) (e : transition W)
    (h : (Machine.getTransition.loop ts w).selected = some e) : e ∈ ts := by
  induction ts generalizing w with
  | nil => simp [Machine.getTransition.loop] at h
  | cons t ts ih =>
    simp only [Machine.getTransition.loop] at h
    split at h
    · simp at h
    · split at h
      · simp only [Option.some.injEq] at h
        rw [← h]
        exact List.mem_cons_self _ _
      · exact List.mem_cons_of_mem _ (ih _ h)

/-! ## Lemmas on the invariants of a machine -/

theorem SetState_currentState_ne_none (m : Machine W) (s : State W) :
    (m.SetState s).2.currentState ≠ none := by
  cases hc : m.currentState with
  | none => rw [SetState_first m s hc]; simp
  | some cur =>
    by_cases hn : cur.Name = s.Name
    · rw [SetState_same m s cur hc hn]; simp [hc]
    · rw [SetState_other m s cur hc hn]; simp

theorem enter_currentState_ne_none (m : Machine W) (sel : Option (transition W))
    (h : m.currentState ≠ none) : (m.enter sel).currentState ≠ none := by
  cases sel with
  | none => exact h
  | some t => exact SetState_currentState_ne_none m t.to_

/-- A step of a machine that has a current state returns and leaves the machine
with a current state. -/
theorem Reconcile_keeps_state (m : Machine W) (w : W) (h : m.currentState ≠ none) :
    (m.Reconcile w).m.currentState ≠ none ∧
      ∃ res err, (m.Reconcile w).out = Outcome.returned res err := by
  cases he : (m.getTransition w).err with
  | some e =>
    rw [Reconcile_err m w e he]
    exact ⟨h, _, _, rfl⟩
  | none =>
    cases hcs : (m.enter (m.getTransition w).selected).currentState with
    | none => exact absurd hcs (enter_currentState_ne_none m _ h)
    | some c =>
      have hr := Reconcile_reach m w c he hcs
      exact ⟨by rw [hr.1]; simp, hr.2.2.2.2.2.1⟩

theorem runOps_keeps_state (ops : List (Op W)) (m : Machine W) (w : W)
    (h : m.currentState ≠ none) :
    ∃ m1 w1, runOps ops m w = some (m1, w1) ∧ m1.currentState ≠ none := by
  induction ops generalizing m w with
  | nil => exact ⟨m, w, rfl, h⟩
  | cons op ops ih =>
    cases op with
    | addTransition r =>
      simp only [runOps, Op.apply]
      exact ih _ _ h
    | setState s =>
      simp only [runOps, Op.apply]
      exact ih _ _ (SetState_currentState_ne_none m s)
    | reconcile =>
      obtain ⟨h1, res, err, h2⟩ := Reconcile_keeps_state m w h
      simp only [runOps, Op.apply, h2]
      exact ih _ _ h1

theorem SetState_logger (m : Machine W) (s : State W) :
    ∃ entries, (m.SetState s).2.logger = m.logger ++ entries := by
  cases hc : m.currentState with
  | none => rw [SetState_first m s hc]; exact ⟨_, rfl⟩
  | some cur =>
    by_cases hn : cur.Name = s.Name
    · rw [SetState_same m s cur hc hn]; exact ⟨[], by simp⟩
    · rw [SetState_other m s cur hc hn]; exact ⟨_, rfl⟩

theorem enter_logger (m : Machine W) (sel : Option (transition W)) :
    ∃ entries, (m.enter sel).logger = m.logger ++ entries := by
  cases sel with
  | none => exact ⟨[], by simp [Machine.enter]⟩
  | some t => exact SetState_logger m t.to_

theorem Reconcile_logger (m : Machine W) (w : W) :
    ∃ entries, (m.Reconcile w).m.logger = m.logger ++ entries := by
  cases he : (m.getTransition w).err with
  | some e => rw [Reconcile_err m w e he]; exact ⟨[], by simp⟩
  | none =>
    obtain ⟨l1, hl1⟩ := enter_logger m (m.getTransition w).selected
    cases hcs : (m.enter (m.getTransition w).selected).currentState with
    | none => rw [Reconcile_panic m w he hcs]; exact ⟨l1, hl1⟩
    | some c =>
      cases hoc : c.OnCompletion with
      | none => rw [Reconcile_plain m w c he hcs hoc]; exact ⟨l1, hl1⟩
      | some g =>
        cases hg : (g (c.Reconcile (m.getTransition w).world).2).1 with
        | none => rw [Reconcile_completed m w c g he hcs hoc hg]; exact ⟨l1, hl1⟩
        | some e =>
          rw [Reconcile_completion_failed m w c g e he hcs hoc hg]
          exact ⟨l1 ++ [LogEntry.errorf "error running OnCompletion for state %s: %s"
            [c.Name, e.msg]], by simp [hl1]⟩

/-- `AddTransition` keeps the endpoints of the stored edges registered. -/
theorem AddTransition_endpoints (m : Machine W) (frm to_ : State W)
    (p : W → (Bool × Option GoError) × W)
    (h1 : ∀ name, m.allTransitions name ≠ none → m.States name ≠ none)
    (h2 : ∀ name t, t ∈ mapGet m.allTransitions name → m.States t.to_.Name ≠ none) :
    (∀ name, (m.AddTransition frm to_ p).allTransitions name ≠ none →
      (m.AddTransition frm to_ p).States name ≠ none) ∧
    (∀ name t, t ∈ mapGet (m.AddTransition frm to_ p).allTransitions name →
      (m.AddTransition frm to_ p).States t.to_.Name ≠ none) := by
  have grow : ∀ name, m.States name ≠ none →
      (m.AddTransition frm to_ p).States name ≠ none := by
    intro name hne
    rw [AddTransition_States]
    split
    · simp
    · split
      · simp
      · exact hne
  constructor
  · intro name hne
    by_cases hn : name = frm.Name
    · rw [AddTransition_States]
      split
      · simp
      · simp [hn]
    · rw [AddTransition_allTransitions_other m frm to_ p name hn] at hne
      exact grow name (h1 name hne)
  · intro name t ht
    rw [AddTransition_mapGet] at ht
    by_cases hn : frm.Name = name
    · simp only [hn, if_true, List.mem_append, List.mem_singleton] at ht
      rcases ht with ht | ht
      · exact grow _ (h2 name t ht)
      · rw [ht, AddTransition_States]
        simp
    · simp only [hn, if_false] at ht
      exact grow _ (h2 name t ht)

theorem runOps_endpoints (ops : List (Op W)) (m : Machine W) (w : W) (m1 : Machine W)
    (w1 : W) (h : runOps ops m w = some (m1, w1))
    (h1 : ∀ name, m.allTransitions name ≠ none → m.States name ≠ none)
    (h2 : ∀ name t, t ∈ mapGet m.allTransitions name → m.States t.to_.Name ≠ none) :
    (∀ name, m1.allTransitions name ≠ none → m1.States name ≠ none) ∧
    (∀ name t, t ∈ mapGet m1.allTransitions name → m1.States t.to_.Name ≠ none) := by
  induction ops generalizing m w with
  | nil =>
    simp only [runOps, Option.some.injEq, Prod.mk.injEq] at h
    rw [← h.1]
    exact ⟨h1, h2⟩
  | cons op ops ih =>
    simp only [runOps] at h
    cases hop : op.apply m w with
    | none => simp [hop] at h
    | some next =>
      simp only [hop] at h
      apply ih next.1 next.2 h
      · cases op with
        | addTransition r =>
          simp only [Op.apply, Option.some.injEq] at hop
          rw [← hop]
          exact (AddTransition_endpoints m r.frm r.to_ r.predicate h1 h2).1
        | setState s =>
          simp only [Op.apply, Option.some.injEq] at hop
          rw [← hop]
          simpa only [SetState_allTransitions, SetState_States] using h1
        | reconcile =>
          simp only [Op.apply] at hop
          split at hop
          · cases hop
          · simp only [Option.some.injEq] at hop
            rw [← hop]
            simpa only [Reconcile_allTransitions, Reconcile_States] using h1
      · cases op with
        | addTransition r =>
          simp only [Op.apply, Option.some.injEq] at hop
          rw [← hop]
          exact (AddTransition_endpoints m r.frm r.to_ r.predicate h1 h2).2
        | setState s =>
          simp only [Op.apply, Option.some.injEq] at hop
          rw [← hop]
          simpa only [SetState_allTransitions, SetState_States] using h2
        | reconcile =>
          simp only [Op.apply] at hop
          split at hop
          · cases hop
          · simp only [Option.some.injEq] at hop
            rw [← hop]
            simpa only [Reconcile_allTransitions, Reconcile_States] using h2

/-! ## Lemmas on what a step depends on -/

theorem SetState_currentState_congr (m m2 : Machine W) (s : State W)
    (h : m.currentState = m2.currentState) :
    (m.SetState s).2.currentState = (m2.SetState s).2.currentState := by
  cases hc : m.currentState with
  | none =>
    rw [SetState_first m s hc, SetState_first m2 s (h ▸ hc)]
  | some cur =>
    have hc2 : m2.currentState = some cur := h ▸ hc
    by_cases hn : cur.Name = s.Name
    · rw [SetState_same m s cur hc hn, SetState_same m2 s cur hc2 hn, hc, hc2]
    · rw [SetState_other m s cur hc hn, SetState_other m2 s cur hc2 hn]

theorem enter_currentState_congr (m m2 : Machine W) (sel : Option (transition W))
    (h : m.currentState = m2.currentState) :
    (m.enter sel).currentState = (m2.enter sel).currentState := by
  cases sel with
  | none => exact h
  | some t => exact SetState_currentState_congr m m2 t.to_ h

/-- The outcome, the world, the calls and the current state after a step depend
only on the cached edge list and on the current state of the machine. -/
theorem Reconcile_congr (m m2 : Machine W) (w : W)
    (ht : m.currentTransitions = m2.currentTransitions)
    (hs : m.currentState = m2.currentState) :
    (m.Reconcile w).out = (m2.Reconcile w).out ∧
    (m.Reconcile w).world = (m2.Reconcile w).world ∧
    (m.Reconcile w).calls = (m2.Reconcile w).calls ∧
    (m.Reconcile w).m.currentState = (m2.Reconcile w).m.currentState := by
  have hg : m.getTransition w = m2.getTransition w := by
    unfold Machine.getTransition
    rw [ht]
  have hen := enter_currentState_congr m m2 (m.getTransition w).selected hs
  cases he : (m.getTransition w).err with
  | some e =>
    rw [Reconcile_err m w e he, Reconcile_err m2 w e (hg ▸ he), hg]
    exact ⟨rfl, rfl, rfl, hs⟩
  | none =>
    have he2 : (m2.getTransition w).err = none := hg ▸ he
    cases hcs : (m.enter (m.getTransition w).selected).currentState with
    | none =>
      have hcs2 : (m2.enter (m2.getTransition w).selected).currentState = none := by
        rw [← hg, ← hen]; exact hcs
      rw [Reconcile_panic m w he hcs, Reconcile_panic m2 w he2 hcs2, hg]
      exact ⟨rfl, rfl, rfl, by rw [← hg, hen]⟩
    | some c =>
      have hcs2 : (m2.enter (m2.getTransition w).selected).currentState = some c := by
        rw [← hg, ← hen]; exact hcs
      cases hoc : c.OnCompletion with
      | none =>
        rw [Reconcile_plain m w c he hcs hoc, Reconcile_plain m2 w c he2 hcs2 hoc, hg]
        exact ⟨rfl, rfl, rfl, by rw [← hg, hen]⟩
      | some g =>
        cases hgr : (g (c.Reconcile (m.getTransition w).world).2).1 with
        | none =>
          rw [Reconcile_completed m w c g he hcs hoc hgr,
            Reconcile_completed m2 w c g he2 hcs2 hoc (hg ▸ hgr), hg]
          exact ⟨rfl, rfl, rfl, by rw [← hg, hen]⟩
        | some e =>
          rw [Reconcile_completion_failed m w c g e he hcs hoc hgr,
            Reconcile_completion_failed m2 w c g e he2 hcs2 hoc (hg ▸ hgr), hg]
          exact ⟨rfl, rfl, rfl, by rw [← hg, hen]⟩

/-- When `getTransition` selects an edge, the guard calls are those of the edges
before it in the list and then its own. -/
theorem loop_selected_split (ts : List (transition W)) (w : W) (e : transition W)
    (h : (Machine.getTransition.loop ts w).selected = some e) :
    ∃ pre post, ts = pre ++ e :: post ∧
      (Machine.getTransition.loop ts w).calls = (pre ++ [e]).map Call.predicate := by
  induction ts generalizing w with
  | nil => simp [Machine.getTransition.loop] at h
  | cons t ts ih =>
    cases hr : (t.predicate w).1.2 with
    | some err =>
      rw [loop_cons_err t ts w err hr] at h
      cases h
    | none =>
      cases hb : (t.predicate w).1.1 with
      | true =>
        have hk : (t.predicate w).1 = (true, none) := Prod.ext hb hr
        rw [loop_cons_true t ts w hk] at h ⊢
        simp only [Option.some.injEq] at h
        exact ⟨[], ts, by rw [h]; rfl, by rw [h]; rfl⟩
      | false =>
        have hk : (t.predicate w).1 = (false, none) := Prod.ext hb hr
        rw [loop_cons_false t ts w hk] at h ⊢
        obtain ⟨pre, post, h1, h2⟩ := ih _ h
        refine ⟨t :: pre, post, by rw [h1]; rfl, ?_⟩
        show Call.predicate t :: _ = _
        rw [h2]
        rfl

/-- The guard calls of a step are the calls of `getTransition`. -/
theorem Reconcile_guard_calls (m : Machine W) (w : W) :
    (m.Reconcile w).calls.filter Call.isPredicate = (m.getTransition w).calls := by
  have hp := loop_calls_predicate m.currentTransitions w
  have hfil : (m.getTransition w).calls.filter Call.isPredicate =
      (m.getTransition w).calls := by
    rw [List.filter_eq_self]
    intro c hc
    obtain ⟨t, rfl⟩ := hp c hc
    rfl
  have hwork : ∀ c : State W, (workCalls c).filter Call.isPredicate = [] := by
    intro c
    cases hoc : c.OnCompletion <;> simp [workCalls, hoc, Call.isPredicate]
  cases he : (m.getTransition w).err with
  | some e => rw [Reconcile_err m w e he]; exact hfil
  | none =>
    cases hcs : (m.enter (m.getTransition w).selected).currentState with
    | none => rw [Reconcile_panic m w he hcs]; exact hfil
    | some c =>
      rw [(Reconcile_reach m w c he hcs).2.2.2.2.1, List.filter_append, hfil, hwork]
      simp

/-! ## The claims -/

/-- C1 as stated fails on `exSelfLoop`: the cached list is the single edge
`exELoop`, whose guard returns `(true, nil)`, so the edge is selected; but its
target `exA2` has the name of the current state `exA`, so `SetState` returns
early, the current state stays the record `exA`, not the target `exA2`, and the
step runs the work of `exA`, not the work and hook of `exA2`. -/
theorem C1_counterexample :
    exSelfLoop.currentState = some exA ∧
    exSelfLoop.currentTransitions = [] ++ exELoop :: [] ∧
    guardsDecline ([] : List (transition (List String))) [] = true ∧
    (exELoop.predicate (guardsWorld [] [])).1 = (true, none) ∧
    (exSelfLoop.getTransition []).selected = some exELoop ∧
    exELoop.to_ = exA2 ∧
    (exSelfLoop.Reconcile []).m.currentState = some exA ∧
    (exSelfLoop.Reconcile []).m.currentState ≠ some exELoop.to_ ∧
    (exSelfLoop.Reconcile []).calls = [Call.predicate exELoop, Call.work exA] ∧
    (exSelfLoop.Reconcile []).world = ["guard L", "work A"] := by
  refine ⟨rfl, rfl, rfl, rfl, rfl, rfl, rfl, ?_, rfl, by decide⟩
  intro h
  have h2 : some exA = some exA2 := h
  have h3 := congrArg (fun s : State (List String) => (s.Reconcile []).1.1.RequeueAfter)
    (Option.some.inj h2)
  revert h3
  decide

/-- C1 amended, first match wins.  When the cached edge list is
`pre ++ e :: post`, the guards of `pre`, called in order, each return
`(false, nil)` and the guard of `e` then returns `(true, nil)`, `getTransition`
selects `e`; the guard calls of the step are those of `pre` and then of `e`,
once each and in list order, and no guard of `post` is called; the step enters
the target of `e` as `SetState` does: the current state after the step has the
name of the target; it is the target record itself when the machine had no
current state or one of another name, and it is the record that was current
before when that record already has the name of the target; the only other
calls of the step are the work phase of that current state. -/
theorem C1_first_match_wins (m : Machine W) (w : W) (pre post : List (transition W))
    (e : transition W)
    (hcache : m.currentTransitions = pre ++ e :: post)
    (hpre : guardsDecline pre w = true)
    (hk : (e.predicate (guardsWorld pre w)).1 = (true, none)) :
    (m.getTransition w).selected = some e ∧
    (m.getTransition w).err = none ∧
    (m.getTransition w).calls = (pre ++ [e]).map Call.predicate ∧
    (m.getTransition w).world = (e.predicate (guardsWorld pre w)).2 ∧
    (m.Reconcile w).m.currentState = (m.SetState e.to_).2.currentState ∧
    (m.Reconcile w).m.currentTransitions = (m.SetState e.to_).2.currentTransitions ∧
    (m.Reconcile w).calls.filter Call.isPredicate = (pre ++ [e]).map Call.predicate ∧
    ∃ s, (m.Reconcile w).m.currentState = some s ∧ s.Name = e.to_.Name ∧
      (m.currentState.map State.Name ≠ some e.to_.Name → s = e.to_) ∧
      (∀ cur, m.currentState = some cur → cur.Name = e.to_.Name → s = cur) ∧
      (m.Reconcile w).calls = (pre ++ [e]).map Call.predicate ++ workCalls s := by
  have hloop : m.getTransition w =
      ⟨some e, none, (e.predicate (guardsWorld pre w)).2, (pre ++ [e]).map Call.predicate⟩ := by
    unfold Machine.getTransition
    rw [hcache, loop_append_decline pre (e :: post) w hpre, loop_cons_true e post _ hk]
    simp
  have hsel : (m.getTransition w).selected = some e := by rw [hloop]
  have herr : (m.getTransition w).err = none := by rw [hloop]
  have hcalls : (m.getTransition w).calls = (pre ++ [e]).map Call.predicate := by rw [hloop]
  have henter : m.enter (m.getTransition w).selected = (m.SetState e.to_).2 := by
    rw [hsel]; rfl
  -- the state entered by `SetState`
  have hstate : ∃ s, (m.SetState e.to_).2.currentState = some s ∧ s.Name = e.to_.Name ∧
      (m.currentState.map State.Name ≠ some e.to_.Name → s = e.to_) ∧
      (∀ cur, m.currentState = some cur → cur.Name = e.to_.Name → s = cur) := by
    cases hc : m.currentState with
    | none =>
      refine ⟨e.to_, ?_, rfl, fun _ => rfl, fun cur h0 _ => by cases h0⟩
      rw [SetState_first m e.to_ hc]
    | some cur =>
      by_cases hn : cur.Name = e.to_.Name
      · refine ⟨cur, ?_, hn, fun hne => ?_, fun c h0 _ => (Option.some.inj h0)⟩
        · rw [SetState_same m e.to_ cur hc hn]; exact hc
        · exact absurd (by simp [hn]) hne
      · refine ⟨e.to_, ?_, rfl, fun _ => rfl, fun c h0 hc0 => ?_⟩
        · rw [SetState_other m e.to_ cur hc hn]
        · cases h0
          exact absurd hc0 hn
  obtain ⟨s, hs, hname, hrec, hsame⟩ := hstate
  have hcur : (m.enter (m.getTransition w).selected).currentState = some s := by
    rw [henter]; exact hs
  have hfilter : ∀ l : List (transition W),
      (l.map Call.predicate).filter Call.isPredicate = l.map (Call.predicate : _ → Call W) := by
    intro l
    induction l with
    | nil => rfl
    | cons x xs ih => simp [Call.isPredicate]
  have hres : (m.Reconcile w).m.currentState = (m.SetState e.to_).2.currentState ∧
      (m.Reconcile w).m.currentTransitions = (m.SetState e.to_).2.currentTransitions ∧
      (m.Reconcile w).calls = (pre ++ [e]).map Call.predicate ++ workCalls s := by
    cases hoc : s.OnCompletion with
    | none =>
      rw [Reconcile_plain m w s herr hcur hoc, henter, hcalls]
      simp [workCalls, hoc]
    | some g =>
      cases hg : (g (s.Reconcile (m.getTransition w).world).2).1 with
      | none =>
        rw [Reconcile_completed m w s g herr hcur hoc hg, henter, hcalls]
        simp [workCalls, hoc]
      | some err =>
        rw [Reconcile_completion_failed m w s g err herr hcur hoc hg, henter, hcalls]
        simp [workCalls, hoc]
  refine ⟨hsel, herr, hcalls, by rw [hloop], hres.1, hres.2.1, ?_, s, ?_, hname, hrec, hsame,
    hres.2.2⟩
  · rw [hres.2.2, List.filter_append, hfilter]
    cases hoc : s.OnCompletion <;> simp [workCalls, hoc, Call.isPredicate]
  · rw [hres.1]; exact hs

/-- Witness of C1 on `exMachine`: the first guard declines, the second and the
third would both accept; the step enters `B` and never calls the third guard. -/
theorem C1_first_match_wins_witness :
    (exMachine.Reconcile []).m.currentState.map State.Name = some "B" ∧
    (exMachine.Reconcile []).world = ["guard 1", "guard 2", "work B", "done B"] ∧
    (exMachine.Reconcile []).calls.filter Call.isPredicate =
      [Call.predicate exE1, Call.predicate exE2] :=
  ⟨by decide, by decide,
    (C1_first_match_wins exMachine [] [exE1] [exE3] exE2 rfl rfl rfl).2.2.2.2.2.2.1⟩

/-- C2, a guard failure aborts the step.  When the cached edge list is
`pre ++ t :: post`, the guards of `pre`, called in order, each return
`(false, nil)` and the guard of `t` then returns an error `err` (with either
boolean), `Reconcile` returns `(Result{}, err)`, the machine is left as it was,
in particular its current state and cached edge list, and the calls of the step
are the guards of `pre` and of `t` only: no work and no completion hook runs. -/
theorem C2_predicate_failure_aborts (m : Machine W) (w : W)
    (pre post : List (transition W)) (t : transition W) (err : GoError)
    (hcache : m.currentTransitions = pre ++ t :: post)
    (hpre : guardsDecline pre w = true)
    (herr : (t.predicate (guardsWorld pre w)).1.2 = some err) :
    (m.Reconcile w).out = Outcome.returned Result.zero (some err) ∧
    (m.Reconcile w).m = m ∧
    (m.Reconcile w).m.currentState = m.currentState ∧
    (m.Reconcile w).m.currentTransitions = m.currentTransitions ∧
    (m.Reconcile w).world = (t.predicate (guardsWorld pre w)).2 ∧
    (m.Reconcile w).calls = (pre ++ [t]).map Call.predicate ∧
    ∀ c ∈ (m.Reconcile w).calls, c.isWork = false ∧ c.isOnCompletion = false := by
  have hloop : m.getTransition w =
      ⟨none, some err, (t.predicate (guardsWorld pre w)).2,
        (pre ++ [t]).map Call.predicate⟩ := by
    unfold Machine.getTransition
    rw [hcache, loop_append_decline pre (t :: post) w hpre, loop_cons_err t post _ err herr]
    simp
  have hr := Reconcile_err m w err (by rw [hloop])
  rw [hloop] at hr
  rw [hr]
  refine ⟨rfl, rfl, rfl, rfl, rfl, rfl, ?_⟩
  intro c hc
  simp only [List.mem_map] at hc
  obtain ⟨x, _, rfl⟩ := hc
  exact ⟨rfl, rfl⟩

/-- Witness of C2 on `exFailing`: the second guard returns `(true, err)`; the
step returns the error, the machine is unchanged and only two guards ran. -/
theorem C2_predicate_failure_aborts_witness :
    (exFailing.Reconcile []).out = Outcome.returned Result.zero (some ⟨"guard failed"⟩) ∧
    (exFailing.Reconcile []).m.currentState = some exA ∧
    (exFailing.Reconcile []).world = ["guard 1", "guard F"] :=
  ⟨(C2_predicate_failure_aborts exFailing [] [exE1] [exE3] exEF ⟨"guard failed"⟩
      rfl rfl rfl).1,
    rfl, by decide⟩

/-- C3 as stated fails on `exHookFails`: the machine is in `A`, its only edge
leads to `B` (another name) and is selected, the work of `B` returns
`(ResultY, nil)`, yet the step returns `(Result{}, err)` with the error of the
completion hook of `B`, not the result of the work of `B`. -/
theorem C3_counterexample :
    exHookFails.currentState = some exA ∧
    exHookFails.currentTransitions = [exEH] ∧
    (exHookFails.getTransition []).selected = some exEH ∧
    exEH.to_.Name ≠ exA.Name ∧
    (exHookFails.Reconcile []).m.currentState = some exBH ∧
    (exBH.Reconcile (exHookFails.getTransition []).world).1 = (⟨true, 20⟩, none) ∧
    (exHookFails.Reconcile []).out =
      Outcome.returned Result.zero (some ⟨"completion failed"⟩) ∧
    (exHookFails.Reconcile []).out ≠ Outcome.returned ⟨true, 20⟩ none :=
  ⟨rfl, rfl, rfl, by decide, rfl, by decide, by decide, by decide⟩

/-- C3 amended, a transition takes effect before the work runs.  For a machine
in state `A`: when a step selects an edge `e` whose target has another name than
`A`, the step makes the target the current state with its registered edges as
the cache, its calls after the guards are the work of the target and then the
completion hook of the target if it has one, never those of `A`, and it returns
the pair of the work of the target when the hook is absent or returns nil, and
`(Result{}, err)` when the hook returns `err`.  In the scenario of a single
always-true edge from `A` to `B`, `B` without outgoing edges, the work of `B`
returning `(Y, nil)` and the hook of `B` absent or always returning nil, every
one of `n + 1` consecutive steps returns `(Y, nil)` and the state is `B` after
each of them. -/
theorem C3_transition_before_work (m : Machine W) (A : State W)
    (hA : m.currentState = some A) :
    (∀ (w : W) (e : transition W), (m.getTransition w).selected = some e →
      e.to_.Name ≠ A.Name →
      (m.Reconcile w).m.currentState = some e.to_ ∧
      (m.Reconcile w).m.currentTransitions = mapGet m.allTransitions e.to_.Name ∧
      (m.Reconcile w).calls = (m.getTransition w).calls ++ workCalls e.to_ ∧
      Call.work A ∉ (m.Reconcile w).calls ∧
      Call.onCompletion A ∉ (m.Reconcile w).calls ∧
      ((e.to_.OnCompletion = none ∨ ∃ g, e.to_.OnCompletion = some g ∧
          (g (e.to_.Reconcile (m.getTransition w).world).2).1 = none) →
        (m.Reconcile w).out =
          Outcome.returned (e.to_.Reconcile (m.getTransition w).world).1.1
            (e.to_.Reconcile (m.getTransition w).world).1.2) ∧
      (∀ g err, e.to_.OnCompletion = some g →
        (g (e.to_.Reconcile (m.getTransition w).world).2).1 = some err →
        (m.Reconcile w).out = Outcome.returned Result.zero (some err))) ∧
    (∀ (B : State W) (p : W → (Bool × Option GoError) × W) (Y : Result),
      m.currentTransitions = [⟨B, p⟩] →
      (∀ v, (p v).1 = (true, none)) →
      B.Name ≠ A.Name →
      mapGet m.allTransitions B.Name = [] →
      (∀ v, (B.Reconcile v).1 = (Y, none)) →
      (B.OnCompletion = none ∨ ∃ g, B.OnCompletion = some g ∧ ∀ v, (g v).1 = none) →
      ∀ (n : Nat) (w : W),
        (m.ReconcileTimes (n + 1) w).outs =
          List.replicate (n + 1) (Outcome.returned Y none) ∧
        (m.ReconcileTimes (n + 1) w).m.currentState = some B) := by
  have general : ∀ (w : W) (e : transition W), (m.getTransition w).selected = some e →
      e.to_.Name ≠ A.Name →
      (m.enter (m.getTransition w).selected).currentState = some e.to_ ∧
      (m.enter (m.getTransition w).selected).currentTransitions =
        mapGet m.allTransitions e.to_.Name ∧
      (m.getTransition w).err = none := by
    intro w e hsel hne
    have herr : (m.getTransition w).err = none :=
      loop_selected_err m.currentTransitions w e hsel
    have henter : m.enter (m.getTransition w).selected = (m.SetState e.to_).2 := by
      rw [hsel]; rfl
    rw [henter, SetState_other m e.to_ A hA (fun h => hne h.symm)]
    exact ⟨rfl, rfl, herr⟩
  constructor
  · intro w e hsel hne
    obtain ⟨hcur, hcache, herr⟩ := general w e hsel hne
    have hr := Reconcile_reach m w e.to_ herr hcur
    have hp := loop_calls_predicate m.currentTransitions w
    have hAne : A ≠ e.to_ := fun h => hne (by rw [h])
    refine ⟨hr.1, by rw [hr.2.1, hcache], hr.2.2.2.2.1, ?_, ?_, hr.2.2.2.2.2.2.1,
      hr.2.2.2.2.2.2.2⟩
    · rw [hr.2.2.2.2.1]
      intro hmem
      rcases List.mem_append.mp hmem with h | h
      · obtain ⟨t, ht⟩ := hp _ h
        cases ht
      · cases hoc : e.to_.OnCompletion <;> simp [workCalls, hoc] at h <;> exact hAne h
    · rw [hr.2.2.2.2.1]
      intro hmem
      rcases List.mem_append.mp hmem with h | h
      · obtain ⟨t, ht⟩ := hp _ h
        cases ht
      · cases hoc : e.to_.OnCompletion <;> simp [workCalls, hoc] at h
        exact hAne h
  · intro B p Y hcache hp hne hnone hY hok n w
    have hloop : m.getTransition w = ⟨some ⟨B, p⟩, none, (p w).2, [Call.predicate ⟨B, p⟩]⟩ := by
      unfold Machine.getTransition
      rw [hcache, loop_cons_true ⟨B, p⟩ [] w (hp w)]
    have hsel : (m.getTransition w).selected = some ⟨B, p⟩ := by rw [hloop]
    obtain ⟨hcur, hcache1, herr⟩ := general w ⟨B, p⟩ hsel hne
    have hr := Reconcile_reach m w B herr hcur
    have hout : (m.Reconcile w).out = Outcome.returned Y none := by
      rw [hr.2.2.2.2.2.2.1 ?_]
      · rw [hY]
      · rcases hok with hno | ⟨g, hgs, hgn⟩
        · exact Or.inl hno
        · exact Or.inr ⟨g, hgs, hgn _⟩
    have hc1 : (m.Reconcile w).m.currentTransitions = [] := by
      rw [hr.2.1, hcache1]; exact hnone
    have hterm := ReconcileTimes_terminal n (m.Reconcile w).m (m.Reconcile w).world B hr.1
      (by intro k _; rw [hc1]; rfl)
    simp only [Machine.ReconcileTimes, hout]
    exact ⟨by rw [hterm.2.2.2.2.2.2.2 Y hY hok, List.replicate_succ], hterm.1⟩

/-- Witness of C3 on `exScenario`: `A` with the single always-true edge to `B`;
three consecutive steps each return the result of the work of `B`. -/
theorem C3_transition_before_work_witness :
    (exScenario.ReconcileTimes 3 []).outs =
        List.replicate 3 (Outcome.returned ⟨true, 20⟩ none) ∧
      (exScenario.ReconcileTimes 3 []).m.currentState = some exB :=
  (C3_transition_before_work exScenario exA rfl).2 exB exE2.predicate ⟨true, 20⟩ rfl
    (fun _ => rfl) (by decide) rfl (fun _ => rfl)
    (Or.inr ⟨exHook "done B" none, rfl, fun _ => rfl⟩) 2 []

/-- C4, a failure of the completion hook wins.  In a step that runs the work of
`cur`, if `cur` has a completion hook and the hook, called after the work,
returns the error `e`, then `Reconcile` returns `(Result{}, e)` whatever pair
the work returned; the work and the hook both ran, and the failure is logged
with the name of `cur`. -/
theorem C4_completion_failure_wins (m : Machine W) (w : W) (cur : State W)
    (g : W → Option GoError × W) (e : GoError)
    (hreach : Call.work cur ∈ (m.Reconcile w).calls)
    (hoc : cur.OnCompletion = some g)
    (hfail : (g (cur.Reconcile (m.getTransition w).world).2).1 = some e) :
    (m.Reconcile w).out = Outcome.returned Result.zero (some e) ∧
    (m.Reconcile w).calls =
      (m.getTransition w).calls ++ [Call.work cur, Call.onCompletion cur] ∧
    (m.Reconcile w).m.logger =
      (m.enter (m.getTransition w).selected).logger ++
        [LogEntry.errorf "error running OnCompletion for state %s: %s" [cur.Name, e.msg]] := by
  obtain ⟨herr, hcur⟩ := (work_mem_calls_iff m w cur).mp hreach
  rw [Reconcile_completion_failed m w cur g e herr hcur hoc hfail]
  exact ⟨rfl, rfl, rfl⟩

/-- Witness of C4 on `exHookFails`: the work of `B` returns `(ResultY, nil)`, the
hook of `B` fails, and the step returns the error of the hook. -/
theorem C4_completion_failure_wins_witness :
    (exHookFails.Reconcile []).out =
      Outcome.returned Result.zero (some ⟨"completion failed"⟩) :=
  (C4_completion_failure_wins exHookFails [] exBH
    (exHook "done B" (some ⟨"completion failed"⟩)) ⟨"completion failed"⟩
    (List.mem_cons_of_mem _ (List.mem_cons_self _ _)) rfl rfl).1

/-- C5, the outcome of the work is passed through.  In a step in which no guard
fails and which ends with a current state `cur`, if `cur` has no completion hook
or its hook, called after the work, returns nil, then `Reconcile` returns exactly
the pair that the work of `cur` returned, result and error alike. -/
theorem C5_work_outcome_unchanged (m : Machine W) (w : W) (cur : State W)
    (hnofail : (m.getTransition w).err = none)
    (hcur : (m.Reconcile w).m.currentState = some cur)
    (hok : cur.OnCompletion = none ∨ ∃ g, cur.OnCompletion = some g ∧
      (g (cur.Reconcile (m.getTransition w).world).2).1 = none) :
    (m.Reconcile w).out =
      Outcome.returned (cur.Reconcile (m.getTransition w).world).1.1
        (cur.Reconcile (m.getTransition w).world).1.2 ∧
    Call.work cur ∈ (m.Reconcile w).calls := by
  have hc : (m.enter (m.getTransition w).selected).currentState = some cur := by
    rw [← Reconcile_currentState m w hnofail]; exact hcur
  exact ⟨(Reconcile_reach m w cur hnofail hc).2.2.2.2.2.2.1 hok,
    (work_mem_calls_iff m w cur).mpr ⟨hnofail, hc⟩⟩

/-- Witness of C5 on `exWorkFails`: the work of `C` returns a non-zero result
together with an error, `C` has no hook, and the step returns that very pair. -/
theorem C5_work_outcome_unchanged_witness :
    (exWorkFails.Reconcile []).out = Outcome.returned ⟨true, 30⟩ (some ⟨"work failed"⟩) :=
  (C5_work_outcome_unchanged exWorkFails [] exC rfl rfl (Or.inl rfl)).1

/-- C6, the completion hook runs after the work, unconditionally.  In a step
that runs the work of `cur`, if `cur` has a completion hook `g`, then the calls
of the step are its guard calls, the work of `cur` and then the hook of `cur`;
the hook is called once, in the world the work left, whatever the work returned
and whether or not an edge was followed, and `cur` is the current state. -/
theorem C6_completion_after_work (m : Machine W) (w : W) (cur : State W)
    (g : W → Option GoError × W)
    (hreach : Call.work cur ∈ (m.Reconcile w).calls)
    (hoc : cur.OnCompletion = some g) :
    (m.Reconcile w).calls =
      (m.getTransition w).calls ++ [Call.work cur, Call.onCompletion cur] ∧
    (∀ c ∈ (m.getTransition w).calls, ∃ t, c = Call.predicate t) ∧
    (m.Reconcile w).calls.filter Call.isOnCompletion = [Call.onCompletion cur] ∧
    (m.Reconcile w).world = (g (cur.Reconcile (m.getTransition w).world).2).2 ∧
    (m.Reconcile w).m.currentState = some cur := by
  obtain ⟨herr, hcur⟩ := (work_mem_calls_iff m w cur).mp hreach
  have hp := loop_calls_predicate m.currentTransitions w
  have hfil : (m.getTransition w).calls.filter Call.isOnCompletion = [] := by
    rw [List.filter_eq_nil_iff]
    intro c hc
    obtain ⟨t, rfl⟩ := hp c hc
    simp [Call.isOnCompletion]
  have hcalls : (m.Reconcile w).calls =
      (m.getTransition w).calls ++ [Call.work cur, Call.onCompletion cur] := by
    rw [(Reconcile_reach m w cur herr hcur).2.2.2.2.1]
    simp [workCalls, hoc]
  refine ⟨hcalls, hp, ?_, ?_, (Reconcile_reach m w cur herr hcur).1⟩
  · rw [hcalls, List.filter_append, hfil]
    simp [Call.isOnCompletion]
  · cases hg : (g (cur.Reconcile (m.getTransition w).world).2).1 with
    | none => rw [Reconcile_completed m w cur g herr hcur hoc hg]
    | some e => rw [Reconcile_completion_failed m w cur g e herr hcur hoc hg]

/-- Witness of C6 on `exMachine`: the step follows the edge to `B`, runs the work
of `B` and then, once, the hook of `B`. -/
theorem C6_completion_after_work_witness :
    (exMachine.Reconcile []).calls.filter Call.isOnCompletion = [Call.onCompletion exB] ∧
    (exMachine.Reconcile []).world = ["guard 1", "guard 2", "work B", "done B"] :=
  ⟨(C6_completion_after_work exMachine [] exB (exHook "done B" none)
      (List.mem_cons_of_mem _ (List.mem_cons_of_mem _ (List.mem_cons_self _ _))) rfl).2.2.1,
    by decide⟩

/-- C7, terminal states are stable.  For a machine in state `S` whose cached
edge list is empty, or whose cached guards each return `(false, nil)` every time
they are called in the course of `n` consecutive steps, these `n` steps all
return (none panics), leave `S` the current state and the cached edge list as it
was, and make exactly `n` work calls, each of them the work of `S`. -/
theorem C7_terminal_states_stable (m : Machine W) (S : State W) (n : Nat) (w : W)
    (hS : m.currentState = some S)
    (hg : m.currentTransitions = [] ∨ ∀ k, k < n →
      guardsDecline m.currentTransitions (m.ReconcileTimes k w).world = true) :
    (m.ReconcileTimes n w).m.currentState = some S ∧
    (m.ReconcileTimes n w).m.currentTransitions = m.currentTransitions ∧
    (m.ReconcileTimes n w).outs.length = n ∧
    (∀ o ∈ (m.ReconcileTimes n w).outs, ∃ res err, o = Outcome.returned res err) ∧
    (m.ReconcileTimes n w).calls.filter Call.isWork = List.replicate n (Call.work S) := by
  have hg1 : ∀ k, k < n →
      guardsDecline m.currentTransitions (m.ReconcileTimes k w).world = true := by
    rcases hg with hnil | hall
    · intro k _
      rw [hnil]
      rfl
    · exact hall
  have h := ReconcileTimes_terminal n m w S hS hg1
  exact ⟨h.1, h.2.1, h.2.2.2.2.1, h.2.2.2.2.2.1, h.2.2.2.2.2.2.1⟩

/-- Witness of C7 on `exTerminal`: the only guard declines; after three steps the
machine is still in `A` and the work of `A` ran three times. -/
theorem C7_terminal_states_stable_witness :
    (exTerminal.ReconcileTimes 3 []).m.currentState = some exA ∧
    (exTerminal.ReconcileTimes 3 []).calls.filter Call.isWork =
      [Call.work exA, Call.work exA, Call.work exA] ∧
    (exTerminal.ReconcileTimes 3 []).world =
      ["guard 1", "work A", "guard 1", "work A", "guard 1", "work A"] :=
  have h := C7_terminal_states_stable exTerminal exA 3 [] rfl (Or.inr (by decide))
  ⟨h.1, h.2.2.2.2, by decide⟩

/-- C8, `SetState` on the current name is a no-op.  For a machine in state `cur`
and any state value `s` with the name of `cur`, whatever its work and hook,
`SetState s` returns nil and leaves the machine as it was: the current state
record, the cached edge list, the edge map, the vertex set and the log. -/
theorem C8_setState_same_name_noop (m : Machine W) (cur s : State W)
    (hc : m.currentState = some cur) (hn : cur.Name = s.Name) :
    (m.SetState s).1 = none ∧
    (m.SetState s).2 = m ∧
    (m.SetState s).2.currentState = some cur ∧
    (m.SetState s).2.currentTransitions = m.currentTransitions ∧
    (m.SetState s).2.allTransitions = m.allTransitions ∧
    (m.SetState s).2.States = m.States ∧
    (m.SetState s).2.logger = m.logger := by
  rw [SetState_same m s cur hc hn]
  exact ⟨rfl, rfl, hc, rfl, rfl, rfl, rfl⟩

/-- Witness of C8 on `exMachine`, which is in `exA`: setting `exA2`, a state of
the same name with another work function and a hook, changes nothing. -/
theorem C8_setState_same_name_noop_witness :
    (exMachine.SetState exA2).1 = none ∧ (exMachine.SetState exA2).2.currentState = some exA :=
  have h := C8_setState_same_name_noop exMachine exA exA2 rfl rfl
  ⟨h.1, h.2.2.1⟩

/-- C9, the cache is the registered edge list.  Let `m` be the machine after any
history `ops` of `AddTransition`, `SetState` and `Reconcile` calls on a new
machine, in particular after `AddTransition` calls only.  When `SetState s`
changes the current state, it returns nil and the cached edge list becomes
`allTransitions[s.Name]`, which is the list of the edges that `ops` registered
with source name `s.Name`, in registration order; likewise after a `Reconcile`
that follows an edge to a state of another name; and that list is empty when
`ops` registered no edge from that name. -/
theorem C9_cache_is_registered_list (logger : List LogEntry) (ops : List (Op W)) (w0 : W)
    (m : Machine W) (w : W)
    (hrun : runOps ops (NewStateMachine logger) w0 = some (m, w)) :
    (∀ s : State W, m.currentState.map State.Name ≠ some s.Name →
      (m.SetState s).1 = none ∧
      (m.SetState s).2.currentState = some s ∧
      (m.SetState s).2.currentTransitions =
        mapGet (m.SetState s).2.allTransitions s.Name ∧
      (m.SetState s).2.currentTransitions = registeredFrom s.Name ops) ∧
    (∀ (v : W) (e : transition W), (m.getTransition v).selected = some e →
      m.currentState.map State.Name ≠ some e.to_.Name →
      (m.Reconcile v).m.currentState = some e.to_ ∧
      (m.Reconcile v).m.currentTransitions =
        mapGet (m.Reconcile v).m.allTransitions e.to_.Name ∧
      (m.Reconcile v).m.currentTransitions = registeredFrom e.to_.Name ops) ∧
    (∀ name : String, (∀ r, Op.addTransition r ∈ ops → r.frm.Name ≠ name) →
      registeredFrom name ops = []) := by
  have hinv : ∀ name, mapGet m.allTransitions name = registeredFrom name ops := by
    intro name
    rw [runOps_mapGet ops (NewStateMachine logger) w0 m w hrun name]
    simp [NewStateMachine, mapGet]
  refine ⟨?_, ?_, ?_⟩
  · intro s hs
    obtain ⟨h1, h2⟩ := SetState_changes m s hs
    exact ⟨SetState_err m s, h1, by rw [h2, SetState_allTransitions], by rw [h2, hinv]⟩
  · intro v e hsel hne
    have herr : (m.getTransition v).err = none :=
      loop_selected_err m.currentTransitions v e hsel
    have henter : m.enter (m.getTransition v).selected = (m.SetState e.to_).2 := by
      rw [hsel]; rfl
    obtain ⟨h1, h2⟩ := SetState_changes m e.to_ hne
    have hcur : (m.enter (m.getTransition v).selected).currentState = some e.to_ := by
      rw [henter]; exact h1
    have hr := Reconcile_reach m v e.to_ herr hcur
    refine ⟨hr.1, ?_, ?_⟩
    · rw [hr.2.1, henter, h2, Reconcile_allTransitions]
    · rw [hr.2.1, henter, h2, hinv]
  · intro name hno
    clear hrun hinv
    induction ops with
    | nil => rfl
    | cons op ops ih =>
      have ih2 := ih (fun r hr => hno r (List.mem_cons_of_mem _ hr))
      cases op with
      | addTransition r =>
        have hr := hno r (List.mem_cons_self _ _)
        simp [registeredFrom, hr, ih2]
      | setState s => simpa [registeredFrom] using ih2
      | reconcile => simpa [registeredFrom] using ih2

/-- Witness of C9 on the history `exOps`: setting the machine back to `A` caches
the three edges registered from `A`, in registration order. -/
theorem C9_cache_is_registered_list_witness :
    (exAfterOps.SetState exA).2.currentTransitions = registeredFrom "A" exOps ∧
    registeredFrom "A" exOps = [exE1, exE2, exE3] :=
  ⟨((C9_cache_is_registered_list [] exOps [] exAfterOps
      ["guard 1", "guard 2", "work B", "done B"] rfl).1 exA (by decide)).2.2.2,
    rfl⟩

/-- C10, stepping an uninitialised machine is fatal.  On a machine obtained from
`NewStateMachine` by any sequence of `AddTransition` calls, `Reconcile` panics
with "no current state!": it returns neither a result nor an error, it calls no
guard, no work and no completion hook, and the world and the machine are as
they were. -/
theorem C10_uninitialised_step_panics (logger : List LogEntry)
    (regs : List (Registration W)) (w : W) :
    ((registerAll (NewStateMachine logger) regs).Reconcile w).out =
      Outcome.panicked "no current state!" ∧
    (∀ res err, ((registerAll (NewStateMachine logger) regs).Reconcile w).out ≠
      Outcome.returned res err) ∧
    ((registerAll (NewStateMachine logger) regs).Reconcile w).calls = [] ∧
    ((registerAll (NewStateMachine logger) regs).Reconcile w).world = w ∧
    ((registerAll (NewStateMachine logger) regs).Reconcile w).m =
      registerAll (NewStateMachine logger) regs := by
  obtain ⟨hs, hc⟩ := registerAll_current (NewStateMachine logger : Machine W) regs
  have hs1 : (registerAll (NewStateMachine logger : Machine W) regs).currentState = none := hs
  have hc1 : (registerAll (NewStateMachine logger : Machine W) regs).currentTransitions = [] := hc
  have hloop : (registerAll (NewStateMachine logger : Machine W) regs).getTransition w =
      ⟨none, none, w, []⟩ := by
    unfold Machine.getTransition
    rw [hc1]
    rfl
  have hr := Reconcile_panic (registerAll (NewStateMachine logger : Machine W) regs) w
    (by rw [hloop]) (by rw [hloop]; exact hs1)
  rw [hloop] at hr
  rw [hr]
  refine ⟨rfl, ?_, rfl, rfl, rfl⟩
  intro res err h
  cases h

/-- C11 as stated fails when `from` and `to` share a name: after
`AddTransition exA exA2 p`, with `exA` and `exA2` both named `A`, the vertex set
holds `exA2` under `A`, not the value `exA` passed as `from`. -/
theorem C11_counterexample :
    exA.Name = exA2.Name ∧
    ((NewStateMachine [] : Machine (List String)).AddTransition exA exA2
      exE1.predicate).States exA.Name = some exA2 ∧
    ((NewStateMachine [] : Machine (List String)).AddTransition exA exA2
      exE1.predicate).States exA.Name ≠ some exA := by
  refine ⟨rfl, rfl, ?_⟩
  intro h
  have h2 : some exA2 = some exA := h
  have h3 := congrArg (fun s : State (List String) => (s.Reconcile []).1.1.RequeueAfter)
    (Option.some.inj h2)
  revert h3
  decide

/-- C11 amended, `AddTransition` appends and registers.  After
`AddTransition(from, to, predicate)` the edge list of `from.Name` is the previous
list, empty if absent, with the new edge appended at the end; the edge lists of
all other names are unchanged; `States[to.Name]` holds `to`; `States[from.Name]`
holds `from` when the two names differ and `to` when they are equal; all other
entries of `States` are unchanged. -/
theorem C11_addTransition_appends_registers (m : Machine W) (frm to_ : State W)
    (p : W → (Bool × Option GoError) × W) :
    (m.AddTransition frm to_ p).allTransitions frm.Name =
      some (mapGet m.allTransitions frm.Name ++ [⟨to_, p⟩]) ∧
    (∀ name, name ≠ frm.Name →
      (m.AddTransition frm to_ p).allTransitions name = m.allTransitions name) ∧
    (m.AddTransition frm to_ p).States to_.Name = some to_ ∧
    (frm.Name ≠ to_.Name → (m.AddTransition frm to_ p).States frm.Name = some frm) ∧
    (frm.Name = to_.Name → (m.AddTransition frm to_ p).States frm.Name = some to_) ∧
    (∀ name, name ≠ frm.Name → name ≠ to_.Name →
      (m.AddTransition frm to_ p).States name = m.States name) := by
  refine ⟨AddTransition_allTransitions_self m frm to_ p,
    fun name h => AddTransition_allTransitions_other m frm to_ p name h, ?_, ?_, ?_, ?_⟩
  · simp [AddTransition_States]
  · intro h
    simp [AddTransition_States, h]
  · intro h
    simp [AddTransition_States, h]
  · intro name h1 h2
    simp [AddTransition_States, h1, h2]

/-- Witness of C11: registering a second edge from `A`, to `B`, on a machine that
already has the edge `exE1` from `A`. -/
theorem C11_addTransition_appends_registers_witness :
    (((NewStateMachine [] : Machine (List String)).AddTransition exA exE1.to_
      exE1.predicate).AddTransition exA exB exE2.predicate).allTransitions "A" =
      some [exE1, exE2] ∧
    (((NewStateMachine [] : Machine (List String)).AddTransition exA exE1.to_
      exE1.predicate).AddTransition exA exB exE2.predicate).States "A" = some exA :=
  have h := C11_addTransition_appends_registers
    ((NewStateMachine [] : Machine (List String)).AddTransition exA exE1.to_ exE1.predicate)
    exA exB exE2.predicate
  ⟨h.1, h.2.2.2.1 (by decide)⟩

/-- C13, the current state is never lost.  `SetState` always leaves a current
state; `AddTransition` keeps the current state; a `Reconcile` on a machine with
a current state returns, never panics, and leaves a current state, also when a
guard fails; hence any sequence of `AddTransition`, `SetState` and `Reconcile`
calls on a machine with a current state, in particular after any `SetState`,
runs without a panic and ends with a current state. -/
theorem C13_current_state_never_lost (m : Machine W) :
    (∀ s : State W, (m.SetState s).2.currentState ≠ none) ∧
    (∀ (frm to_ : State W) (p : W → (Bool × Option GoError) × W),
      (m.AddTransition frm to_ p).currentState = m.currentState) ∧
    (∀ w : W, m.currentState ≠ none →
      (m.Reconcile w).m.currentState ≠ none ∧
      (∃ res err, (m.Reconcile w).out = Outcome.returned res err) ∧
      ∀ msg, (m.Reconcile w).out ≠ Outcome.panicked msg) ∧
    (∀ (ops : List (Op W)) (w : W), m.currentState ≠ none →
      ∃ m1 w1, runOps ops m w = some (m1, w1) ∧ m1.currentState ≠ none) ∧
    (∀ (s : State W) (ops : List (Op W)) (w : W),
      ∃ m1 w1, runOps ops (m.SetState s).2 w = some (m1, w1) ∧ m1.currentState ≠ none) := by
  refine ⟨SetState_currentState_ne_none m, fun _ _ _ => rfl, ?_,
    fun ops w h => runOps_keeps_state ops m w h,
    fun s ops w => runOps_keeps_state ops _ w (SetState_currentState_ne_none m s)⟩
  intro w h
  obtain ⟨h1, res, err, h2⟩ := Reconcile_keeps_state m w h
  refine ⟨h1, ⟨res, err, h2⟩, ?_⟩
  intro msg hmsg
  rw [h2] at hmsg
  cases hmsg

/-- Witness of C13 on `exFailing`, whose step is aborted by a guard error: two
steps in a row return and the machine is still in `A`. -/
theorem C13_current_state_never_lost_witness :
    ∃ m1 w1, runOps [Op.reconcile, Op.reconcile] exFailing [] = some (m1, w1) ∧
      m1.currentState ≠ none :=
  (C13_current_state_never_lost exFailing).2.2.2.1 [Op.reconcile, Op.reconcile] []
    (by intro h; cases h)

/-- C14, stepping does not mutate the graph.  `Reconcile` and `SetState` leave
the vertex set `States` and the edge map `allTransitions` as they were.  Of the
other fields, the current state and the cached edge list may change, and the
logger only receives further entries. -/
theorem C14_step_keeps_graph (m : Machine W) :
    (∀ w : W,
      (m.Reconcile w).m.States = m.States ∧
      (m.Reconcile w).m.allTransitions = m.allTransitions ∧
      ∃ entries, (m.Reconcile w).m.logger = m.logger ++ entries) ∧
    (∀ s : State W,
      (m.SetState s).2.States = m.States ∧
      (m.SetState s).2.allTransitions = m.allTransitions ∧
      ∃ entries, (m.SetState s).2.logger = m.logger ++ entries) :=
  ⟨fun w => ⟨Reconcile_States m w, Reconcile_allTransitions m w, Reconcile_logger m w⟩,
    fun s => ⟨SetState_States m s, SetState_allTransitions m s, SetState_logger m s⟩⟩

/-- C15, every edge's endpoints are registered.  In the machine after any
history of `AddTransition`, `SetState` and `Reconcile` calls on a new machine,
every name with an entry in the edge map is a key of `States`, and the target
name of every edge stored in the edge map is a key of `States`. -/
theorem C15_endpoints_registered (logger : List LogEntry) (ops : List (Op W)) (w0 : W)
    (m : Machine W) (w : W)
    (hrun : runOps ops (NewStateMachine logger) w0 = some (m, w)) :
    (∀ name, m.allTransitions name ≠ none → m.States name ≠ none) ∧
    (∀ name l t, m.allTransitions name = some l → t ∈ l →
      m.States t.to_.Name ≠ none) := by
  have h := runOps_endpoints ops (NewStateMachine logger) w0 m w hrun
    (by intro name hne; exact absurd rfl hne)
    (by intro name t ht; simp [NewStateMachine, mapGet] at ht)
  refine ⟨h.1, ?_⟩
  intro name l t hl ht
  apply h.2 name t
  simp [mapGet, hl, ht]

/-- Witness of C15 on the history `exOps`: the source `A` of the stored edges and
the target `C` of the last one are keys of the vertex set. -/
theorem C15_endpoints_registered_witness :
    exAfterOps.States "A" ≠ none ∧ exAfterOps.States exE3.to_.Name ≠ none :=
  have h := C15_endpoints_registered [] exOps [] exAfterOps
    ["guard 1", "guard 2", "work B", "done B"] rfl
  ⟨h.1 "A" (by intro h0; cases h0),
    h.2 "A" [exE1, exE2, exE3] exE3 rfl (by simp)⟩

/-- C16, `AddTransition` does not refresh the cache.  `AddTransition` changes
neither the current state nor the cached edge list; the next step selects the
same edge, makes the same callback calls and returns the same outcome as it
would have before the call, and it does not call the new guard unless the new
edge was cached already; so, on a machine whose cache was the edge list of its
current state, the cache differs from `allTransitions[currentState.Name]` after
an edge from a state of the current name is registered. -/
theorem C16_addTransition_keeps_cache (m : Machine W) (frm to_ : State W)
    (p : W → (Bool × Option GoError) × W) :
    (m.AddTransition frm to_ p).currentState = m.currentState ∧
    (m.AddTransition frm to_ p).currentTransitions = m.currentTransitions ∧
    (∀ w, (m.AddTransition frm to_ p).getTransition w = m.getTransition w) ∧
    (∀ w,
      ((m.AddTransition frm to_ p).Reconcile w).calls = (m.Reconcile w).calls ∧
      ((m.AddTransition frm to_ p).Reconcile w).out = (m.Reconcile w).out ∧
      ((m.AddTransition frm to_ p).Reconcile w).world = (m.Reconcile w).world) ∧
    (∀ w, (⟨to_, p⟩ : transition W) ∉ m.currentTransitions →
      Call.predicate ⟨to_, p⟩ ∉ ((m.AddTransition frm to_ p).Reconcile w).calls) ∧
    (∀ cur, m.currentState = some cur → frm.Name = cur.Name →
      m.currentTransitions = mapGet m.allTransitions cur.Name →
      mapGet (m.AddTransition frm to_ p).allTransitions cur.Name =
        (m.AddTransition frm to_ p).currentTransitions ++ [⟨to_, p⟩] ∧
      (m.AddTransition frm to_ p).currentTransitions ≠
        mapGet (m.AddTransition frm to_ p).allTransitions cur.Name) := by
  have hcongr := fun w => Reconcile_congr (m.AddTransition frm to_ p) m w rfl rfl
  refine ⟨rfl, rfl, fun w => rfl,
    fun w => ⟨(hcongr w).2.2.1, (hcongr w).1, (hcongr w).2.1⟩, ?_, ?_⟩
  · intro w hnot hmem
    rw [(hcongr w).2.2.1] at hmem
    have hfil : Call.predicate ⟨to_, p⟩ ∈ (m.Reconcile w).calls.filter Call.isPredicate :=
      List.mem_filter.mpr ⟨hmem, rfl⟩
    rw [Reconcile_guard_calls] at hfil
    have hsub := (loop_calls_initial_segment m.currentTransitions w).subset hfil
    obtain ⟨t, ht, heq⟩ := List.mem_map.mp hsub
    cases heq
    exact hnot ht
  · intro cur _ hname hsync
    have hall : mapGet (m.AddTransition frm to_ p).allTransitions cur.Name =
        (m.AddTransition frm to_ p).currentTransitions ++ [⟨to_, p⟩] := by
      rw [AddTransition_mapGet, if_pos hname, ← hsync]
      rfl
    refine ⟨hall, ?_⟩
    intro heq
    rw [hall] at heq
    have hlen := congrArg List.length heq
    simp at hlen

/-- Witness of C16 on `exStale`: `A` was set before the always-true edge from `A`
to `B` was registered; the cache is empty while the edge map holds the edge. -/
theorem C16_addTransition_keeps_cache_witness :
    exStale.currentTransitions ≠ mapGet exStale.allTransitions exA.Name ∧
    exStale.currentTransitions = [] ∧
    (exStale.Reconcile []).world = ["work A"] :=
  ⟨((C16_addTransition_keeps_cache ((NewStateMachine []).SetState exA).2 exA exE2.to_
      exE2.predicate).2.2.2.2.2 exA rfl rfl rfl).2,
    rfl, by decide⟩

/-- C17, at most one transition per step.  For a machine in state `A`, after one
`Reconcile` the current state is `A`, or it is the target of the edge of the
cached list that `getTransition` selected.  The guard calls of the step are a
prefix of the guards of the cached list as it was before the call; when an edge
was selected they end with the guard of that edge, so no guard of the state
entered in this step is called in it. -/
theorem C17_one_transition_per_step (m : Machine W) (w : W) (A : State W)
    (hA : m.currentState = some A) :
    ((m.Reconcile w).m.currentState = some A ∨
      ∃ e ∈ m.currentTransitions, (m.getTransition w).selected = some e ∧
        (m.Reconcile w).m.currentState = some e.to_) ∧
    (m.Reconcile w).calls.filter Call.isPredicate <+:
      m.currentTransitions.map Call.predicate ∧
    (∀ e, (m.getTransition w).selected = some e →
      ∃ pre post, m.currentTransitions = pre ++ e :: post ∧
        (m.Reconcile w).calls.filter Call.isPredicate =
          (pre ++ [e]).map Call.predicate) := by
  refine ⟨?_, ?_, ?_⟩
  · cases he : (m.getTransition w).err with
    | some err =>
      rw [Reconcile_err m w err he]
      exact Or.inl hA
    | none =>
      rw [Reconcile_currentState m w he]
      cases hsel : (m.getTransition w).selected with
      | none => exact Or.inl hA
      | some e =>
        by_cases hn : A.Name = e.to_.Name
        · left
          show (m.SetState e.to_).2.currentState = some A
          rw [SetState_same m e.to_ A hA hn]
          exact hA
        · right
          refine ⟨e, loop_selected_mem m.currentTransitions w e hsel, rfl, ?_⟩
          show (m.SetState e.to_).2.currentState = some e.to_
          rw [SetState_other m e.to_ A hA hn]
  · rw [Reconcile_guard_calls]
    exact loop_calls_initial_segment m.currentTransitions w
  · intro e hsel
    rw [Reconcile_guard_calls]
    exact loop_selected_split m.currentTransitions w e hsel

/-- Witness of C17 on `exReRegistered`: the step from `A` enters `B`, whose only
guard would return true, and that guard is not called in this step. -/
theorem C17_one_transition_per_step_witness :
    (exReRegistered.Reconcile []).m.currentTransitions = [exE3] ∧
    (exReRegistered.Reconcile []).world = ["guard 2", "work B", "done B"] ∧
    ∃ pre post, exReRegistered.currentTransitions = pre ++ exE2 :: post ∧
      (exReRegistered.Reconcile []).calls.filter Call.isPredicate =
        (pre ++ [exE2]).map Call.predicate :=
  ⟨rfl, by decide,
    (C17_one_transition_per_step exReRegistered [] exA rfl).2.2 exE2 rfl⟩

/-- C18, a selected self-loop changes nothing.  For a machine in state `A`, when
the selected edge leads to a state with the name of `A`, the step leaves the
current state record `A` and the cached edge list as they were, runs the work
phase of the record `A` and returns by it, and calls neither the work nor the
hook of the target of the edge when that record differs from `A`. -/
theorem C18_self_loop_changes_nothing (m : Machine W) (w : W) (A : State W)
    (e : transition W)
    (hA : m.currentState = some A)
    (hsel : (m.getTransition w).selected = some e)
    (hname : e.to_.Name = A.Name) :
    (m.Reconcile w).m.currentState = some A ∧
    (m.Reconcile w).m.currentTransitions = m.currentTransitions ∧
    (m.Reconcile w).calls = (m.getTransition w).calls ++ workCalls A ∧
    Call.work A ∈ (m.Reconcile w).calls ∧
    (e.to_ ≠ A → Call.work e.to_ ∉ (m.Reconcile w).calls ∧
      Call.onCompletion e.to_ ∉ (m.Reconcile w).calls) ∧
    ((A.OnCompletion = none ∨ ∃ g, A.OnCompletion = some g ∧
        (g (A.Reconcile (m.getTransition w).world).2).1 = none) →
      (m.Reconcile w).out =
        Outcome.returned (A.Reconcile (m.getTransition w).world).1.1
          (A.Reconcile (m.getTransition w).world).1.2) ∧
    (∀ g err, A.OnCompletion = some g →
      (g (A.Reconcile (m.getTransition w).world).2).1 = some err →
      (m.Reconcile w).out = Outcome.returned Result.zero (some err)) := by
  have herr : (m.getTransition w).err = none :=
    loop_selected_err m.currentTransitions w e hsel
  have henter : m.enter (m.getTransition w).selected = m := by
    rw [hsel]
    show (m.SetState e.to_).2 = m
    rw [SetState_same m e.to_ A hA hname.symm]
  have hcur : (m.enter (m.getTransition w).selected).currentState = some A := by
    rw [henter]; exact hA
  have hr := Reconcile_reach m w A herr hcur
  refine ⟨hr.1, by rw [hr.2.1, henter], hr.2.2.2.2.1,
    (work_mem_calls_iff m w A).mpr ⟨herr, hcur⟩, ?_, hr.2.2.2.2.2.2.1, hr.2.2.2.2.2.2.2⟩
  intro hne
  constructor
  · intro hmem
    have h := ((work_mem_calls_iff m w e.to_).mp hmem).2
    rw [hcur] at h
    exact hne (Option.some.inj h).symm
  · intro hmem
    have h := (onCompletion_mem_calls m w e.to_ hmem).2
    rw [hcur] at h
    exact hne (Option.some.inj h).symm

/-- Witness of C18 on `exSelfLoop`: the selected edge leads to `exA2`, named `A`
like the current state `exA`; the step stays in `exA` and runs the work of
`exA`, not the work and hook of `exA2`. -/
theorem C18_self_loop_changes_nothing_witness :
    (exSelfLoop.Reconcile []).m.currentState = some exA ∧
    (exSelfLoop.Reconcile []).calls = [Call.predicate exELoop, Call.work exA] ∧
    (exSelfLoop.Reconcile []).world = ["guard L", "work A"] :=
  have h := C18_self_loop_changes_nothing exSelfLoop [] exA exELoop rfl rfl rfl
  ⟨h.1, h.2.2.1, by decide⟩

end StateMachine
